import Mathlib

/-!
Verification of the Bellman-Ford shortest-path implementation
(src/bellmanfloydAlgorithm.py) against its design specification.

Embedding conventions:
* Vertices are strings, edge weights are integers (the concrete graphs in
  the repository use integer weights; the float infinity sentinel of the
  Python code is modelled by `WithTop Int`, whose arithmetic agrees with
  IEEE infinity on finite weights: `⊤ + w = ⊤` and `⊤ < x` never holds).
* Python dictionaries become association lists with first-match lookup
  (`alookup`) and in-place update that appends a fresh key (`aset`),
  matching dict insertion-order semantics.
* Raised exceptions become `Except BFErr`: `BFErr.keyError` models the
  KeyError of a missing dictionary key and `BFErr.negCycle` the
  ValueError raised on a detected negative cycle.
* The unbounded while loop of reconstruct_path is modelled with explicit
  fuel; the canonical fuel (number of predecessor entries plus one) is
  proved sufficient in every terminating case the claims speak about.
-/

namespace BellmanFord

abbrev Vertex := String

/-- A directed weighted edge (start, end, weight). -/
abbrev Edge := Vertex × Vertex × Int

/-- The graph type of the Python code: a dictionary mapping each vertex to
its list of (neighbor, weight) pairs, as an association list. -/
abbrev Graph := List (Vertex × List (Vertex × Int))

/-- Distances dictionary: vertex to extended integer (`⊤` is float inf). -/
abbrev DistMap := List (Vertex × WithTop Int)

/-- Predecessors dictionary: vertex to optional predecessor (None = none). -/
abbrev PredMap := List (Vertex × Option Vertex)

/-- Errors the Python function can raise: a KeyError from a missing
dictionary key, or the ValueError for a negative weight cycle. -/
inductive BFErr where
  | keyError : BFErr
  | negCycle : BFErr
deriving DecidableEq, Repr

/-- First-match association-list lookup: Python `m[k]` returning
`none` where Python raises KeyError. -/
def alookup {β : Type} : List (Vertex × β) → Vertex → Option β
  | [], _ => none
  | (k, x) :: rest, v => if k = v then some x else alookup rest v

/-- Python dict assignment `m[k] = x`: update in place if the key exists,
otherwise append the new key (dict insertion order). -/
def aset {β : Type} : List (Vertex × β) → Vertex → β → List (Vertex × β)
  | [], k, x => [(k, x)]
  | (k', x') :: rest, k, x =>
    if k' = k then (k, x) :: rest else (k', x') :: aset rest k x

/-- The key list of the graph dictionary (Python `for vertex in graph`). -/
def keys (g : Graph) : List Vertex := g.map Prod.fst

/-- Flattened edge list, exactly as the comprehension
`[(start, end, weight) for start in graph for end, weight in graph[start]]`. -/
def edgeList : Graph → List Edge
  | [] => []
  | (u, adj) :: rest => adj.map (fun q => (u, q.1, q.2)) ++ edgeList rest

/-- One relaxation step for edge `e`, as in the loop body
`if distances[start] + weight < distances[end]: ...`; a missing
dictionary key raises KeyError. -/
def relaxEdge (d : DistMap) (p : PredMap) (e : Edge) :
    Except BFErr (DistMap × PredMap) :=
  match alookup d e.1, alookup d e.2.1 with
  | some du, some dv =>
    if du + (e.2.2 : WithTop Int) < dv then
      .ok (aset d e.2.1 (du + (e.2.2 : WithTop Int)), aset p e.2.1 (some e.1))
    else
      .ok (d, p)
  | _, _ => .error .keyError

/-- One full pass of the inner `for start, end, weight in edges` loop. -/
def relaxList : List Edge → DistMap → PredMap → Except BFErr (DistMap × PredMap)
  | [], d, p => .ok (d, p)
  | e :: rest, d, p =>
    match relaxEdge d p e with
    | .ok (d', p') => relaxList rest d' p'
    | .error err => .error err

/-- The outer `for _ in range(len(graph) - 1)` loop, `n` passes. -/
def relaxRounds : Nat → List Edge → DistMap → PredMap →
    Except BFErr (DistMap × PredMap)
  | 0, _, d, p => .ok (d, p)
  | n + 1, es, d, p =>
    match relaxList es d p with
    | .ok (d', p') => relaxRounds n es d' p'
    | .error err => .error err

/-- The final negative-cycle check loop: raises ValueError (negCycle) at the
first edge that still relaxes, KeyError at a missing key. -/
def checkList : List Edge → DistMap → Except BFErr Unit
  | [], _ => .ok ()
  | e :: rest, d =>
    match alookup d e.1, alookup d e.2.1 with
    | some du, some dv =>
      if du + (e.2.2 : WithTop Int) < dv then .error .negCycle
      else checkList rest d
    | _, _ => .error .keyError

/-- The initial distances dictionary:
`{vertex: inf for vertex in graph}` followed by `distances[source] = 0`
(which adds the source key when it is absent from the graph). -/
def initD (g : Graph) (s : Vertex) : DistMap :=
  aset (g.map fun pr => (pr.1, (⊤ : WithTop Int))) s 0

/-- The initial predecessors dictionary `{vertex: None for vertex in graph}`. -/
def initP (g : Graph) : PredMap := g.map fun pr => (pr.1, none)

/-- The full bellman_ford_algorithm function: initialisation, |V|-1
relaxation passes, cycle check, and the returned pair. -/
def bellman_ford_algorithm (g : Graph) (s : Vertex) :
    Except BFErr (DistMap × PredMap) :=
  match relaxRounds (g.length - 1) (edgeList g) (initD g s) (initP g) with
  | .ok (d, p) =>
    match checkList (edgeList g) d with
    | .ok _ => .ok (d, p)
    | .error err => .error err
  | .error err => .error err

/-- The while loop of reconstruct_path with explicit fuel: prepend the
current vertex, then follow its predecessor link; `none` signals a missing
key (KeyError) or exhausted fuel. -/
def reconstructAux (p : PredMap) : Nat → Vertex → List Vertex →
    Option (List Vertex)
  | 0, _, _ => none
  | fuel + 1, cur, acc =>
    match alookup p cur with
    | none => none
    | some none => some (cur :: acc)
    | some (some u) => reconstructAux p fuel u (cur :: acc)

/-- reconstruct_path(predecessors, target) with the canonical fuel, which
suffices for every predecessor map produced by a successful run. -/
def reconstruct_path (p : PredMap) (t : Vertex) : Option (List Vertex) :=
  reconstructAux p (p.length + 1) t []

/-- The example graph wired up in the module's main block. -/
def exampleGraph : Graph :=
  [("A", [("B", 3), ("C", 5)]),
   ("B", [("C", 2), ("D", 6)]),
   ("C", [("B", 1), ("D", 4), ("E", 6)]),
   ("D", [("E", 2)]),
   ("E", [("A", 3), ("D", 7)])]

/-- The distances the code actually computes on the example graph. -/
def exampleDists : DistMap :=
  [("A", (0 : Int)), ("B", (3 : Int)), ("C", (5 : Int)),
   ("D", (9 : Int)), ("E", (11 : Int))]

/-- The predecessors the code actually computes on the example graph. -/
def examplePreds : PredMap :=
  [("A", none), ("B", some "A"), ("C", some "A"),
   ("D", some "B"), ("E", some "C")]

/-! ### Walks, reachability and negative cycles (specification vocabulary) -/

/-- `IsWalkFrom E u v l`: the edge list `l` is a directed walk from `u` to
`v` using only edges of `E` (consecutive edges chained head to tail). -/
def IsWalkFrom (E : List Edge) : Vertex → Vertex → List Edge → Prop
  | u, v, [] => u = v
  | u, v, e :: rest => e ∈ E ∧ e.1 = u ∧ IsWalkFrom E e.2.1 v rest

/-- Total weight of a walk. -/
def wsum : List Edge → Int
  | [] => 0
  | e :: rest => e.2.2 + wsum rest

/-- The vertex sequence visited by a walk starting at `u`. -/
def walkVerts (u : Vertex) (l : List Edge) : List Vertex :=
  u :: l.map (fun e => e.2.1)

/-- The caller contract of the spec: every edge endpoint is a key. -/
def KeyComplete (g : Graph) : Prop :=
  ∀ e ∈ edgeList g, e.1 ∈ keys g ∧ e.2.1 ∈ keys g

/-- `v` is reachable from `s` in the graph. -/
def Reachable (g : Graph) (s v : Vertex) : Prop :=
  ∃ l, IsWalkFrom (edgeList g) s v l

/-- Some nonempty closed walk of strictly negative total weight starts at a
vertex reachable from `s`. -/
def HasReachableNegWalk (g : Graph) (s : Vertex) : Prop :=
  ∃ x c, Reachable g s x ∧ IsWalkFrom (edgeList g) x x c ∧ c ≠ [] ∧ wsum c < 0

/-- A directed cycle (closed walk whose vertices, final repeat removed, are
pairwise distinct) of strictly negative weight, reachable from `s`. -/
def HasReachableNegCycle (g : Graph) (s : Vertex) : Prop :=
  ∃ x c, Reachable g s x ∧ IsWalkFrom (edgeList g) x x c ∧ c ≠ [] ∧
    wsum c < 0 ∧ (walkVerts x c).dropLast.Nodup

/-! ### The instrumented run

The Except-valued model above is the faithful embedding of the Python
code.  For the invariant proofs we replay the relaxation phase on a pure
state that carries, in addition to the two dictionaries, a ghost
timestamp per vertex recording when its predecessor entry was last
assigned.  Under the key conditions in force whenever the run does not
raise a KeyError, the pure replay projects exactly onto the Except run. -/

/-- Instrumented state: the two dictionaries plus ghost timestamps. -/
structure IState where
  d : DistMap
  p : PredMap
  stamp : Vertex → Nat
  ctr : Nat

/-- Instrumented relaxation of a single edge (no-op where the Except
model would raise a KeyError). -/
def irelax (σ : IState) (e : Edge) : IState :=
  match alookup σ.d e.1, alookup σ.d e.2.1 with
  | some du, some dv =>
    if du + (e.2.2 : WithTop Int) < dv then
      { d := aset σ.d e.2.1 (du + (e.2.2 : WithTop Int)),
        p := aset σ.p e.2.1 (some e.1),
        stamp := fun x => if x = e.2.1 then σ.ctr else σ.stamp x,
        ctr := σ.ctr + 1 }
    else σ
  | _, _ => σ

/-- Instrumented pass over an edge list. -/
def irelaxList : List Edge → IState → IState
  | [], σ => σ
  | e :: rest, σ => irelaxList rest (irelax σ e)

/-- Instrumented outer loop of `n` passes. -/
def irounds : Nat → List Edge → IState → IState
  | 0, _, σ => σ
  | n + 1, es, σ => irounds n es (irelaxList es σ)

/-- The instrumented initial state. -/
def initState (g : Graph) (s : Vertex) : IState :=
  { d := initD g s, p := initP g, stamp := fun _ => 0, ctr := 1 }

/-- The instrumented state after the |V|-1 relaxation passes. -/
def finalState (g : Graph) (s : Vertex) : IState :=
  irounds (g.length - 1) (edgeList g) (initState g s)

/-- All endpoints of the given edges have entries in the distances
dictionary (no relaxation can raise a KeyError). -/
def Covers (d : DistMap) (es : List Edge) : Prop :=
  ∀ e ∈ es, (alookup d e.1).isSome ∧ (alookup d e.2.1).isSome

/-- The fixed-point postcondition: no edge can still relax. -/
def FixedPoint (d : DistMap) (es : List Edge) : Prop :=
  ∀ e ∈ es, ∃ du dv, alookup d e.1 = some du ∧ alookup d e.2.1 = some dv ∧
    dv ≤ du + (e.2.2 : WithTop Int)

/-- Pointwise domination of distance dictionaries: every entry of `σ` is
still present in `σ₂` with a value that is no larger (distances only ever
decrease during the run). -/
def DLeState (σ₂ σ : IState) : Prop :=
  ∀ v dv, alookup σ.d v = some dv →
    ∃ dv₂, alookup σ₂.d v = some dv₂ ∧ dv₂ ≤ dv

/-- The run invariant, relative to graph `g` and source `s`.  The
predecessor-edge clauses carry the ghost timestamps: a predecessor edge
whose source was relaxed after it was installed is strictly slack, one
whose source is untouched since is tight. -/
structure Inv (g : Graph) (s : Vertex) (σ : IState) : Prop where
  dkeys : ∀ v, (alookup σ.d v).isSome ↔ (v ∈ keys g ∨ v = s)
  pkeys : ∀ v, v ∈ keys g → (alookup σ.p v).isSome
  sound : ∀ v dv, alookup σ.d v = some dv →
    dv = ⊤ ∨ ∃ l, IsWalkFrom (edgeList g) s v l ∧
      ((wsum l : Int) : WithTop Int) = dv
  ctrBig : ∀ v, σ.stamp v < σ.ctr
  predSome : ¬ HasReachableNegWalk g s → ∀ x y,
    alookup σ.p x = some (some y) →
    ∃ (w dx dy : Int), (y, x, w) ∈ edgeList g ∧
      alookup σ.d x = some ((dx : Int) : WithTop Int) ∧
      alookup σ.d y = some ((dy : Int) : WithTop Int) ∧
      σ.stamp y ≠ σ.stamp x ∧
      (σ.stamp y < σ.stamp x → dx = dy + w) ∧
      (σ.stamp x < σ.stamp y → dy + w < dx)
  predNone : ∀ x, alookup σ.p x = some none →
    x = s ∨ alookup σ.d x = some ⊤
  srcZero : ¬ HasReachableNegWalk g s →
    alookup σ.d s = some ((0 : Int) : WithTop Int)
  srcPred : ¬ HasReachableNegWalk g s → s ∈ keys g →
    alookup σ.p s = some none

/-! ### Association-list lemmas -/

theorem alookup_aset_self {β : Type} (m : List (Vertex × β)) (k : Vertex)
    (x : β) : alookup (aset m k x) k = some x := by
  induction m with
  | nil => simp [aset, alookup]
  | cons hd tl ih =>
    obtain ⟨k', x'⟩ := hd
    by_cases h : k' = k
    · simp [aset, h, alookup]
    · simp [aset, h, alookup, ih]

theorem alookup_aset_ne {β : Type} (m : List (Vertex × β)) (k v : Vertex)
    (x : β) (h : v ≠ k) : alookup (aset m k x) v = alookup m v := by
  induction m with
  | nil => simp [aset, alookup, Ne.symm h]
  | cons hd tl ih =>
    obtain ⟨k', x'⟩ := hd
    by_cases hk : k' = k
    · subst hk
      simp [aset, alookup, Ne.symm h]
    · simp only [aset, if_neg hk, alookup]
      split_ifs <;> simp [ih]

theorem alookup_aset_isSome {β : Type} (m : List (Vertex × β)) (k v : Vertex)
    (x : β) :
    (alookup (aset m k x) v).isSome ↔ (v = k ∨ (alookup m v).isSome) := by
  by_cases h : v = k
  · subst h; simp [alookup_aset_self]
  · simp [alookup_aset_ne m k v x h, h]

theorem alookup_map_const {β : Type} (g : Graph) (c : β) (v : Vertex) :
    alookup (g.map fun pr => (pr.1, c)) v =
      if v ∈ keys g then some c else none := by
  induction g with
  | nil => simp [alookup, keys]
  | cons hd tl ih =>
    obtain ⟨u, adj⟩ := hd
    by_cases h : u = v
    · simp [alookup, keys, h]
    · have h' : ¬ v = u := fun hv => h hv.symm
      have hmem : (v ∈ keys ((u, adj) :: tl)) ↔ v ∈ keys tl := by
        simp [keys, List.mem_cons, h']
      by_cases hm : v ∈ keys tl
      · simp [alookup, h, ih, hmem, hm]
      · simp [alookup, h, ih, hmem, hm]

/-! ### Claim C4: the concrete example run (corrected) -/

/-- The full concrete output of the algorithm on the example graph. -/
theorem example_run_eq :
    bellman_ford_algorithm exampleGraph "A" =
      .ok (exampleDists, examplePreds) := by
  rfl

/-- Claim C4 as stated is false: on the example graph with source A the
code does not return distances C=4, D=6, E=8 (it returns C=5, D=9, E=11).
Refuted at the concrete input of the claim. -/
theorem c4_counterexample :
    ¬ (∃ r, bellman_ford_algorithm exampleGraph "A" = .ok r ∧
        alookup r.1 "C" = some ((4 : Int) : WithTop Int) ∧
        alookup r.1 "D" = some ((6 : Int) : WithTop Int) ∧
        alookup r.1 "E" = some ((8 : Int) : WithTop Int)) := by
  rintro ⟨r, hok, hC, -, -⟩
  rw [example_run_eq] at hok
  injection hok with h
  rw [← h] at hC
  exact absurd hC (by decide)

/-- Amended claim C4: on the concrete example graph with source A the
algorithm returns successfully with distances A=0, B=3, C=5, D=9, E=11
(the values a faithful run of the code produces). -/
theorem c4_example_distances :
    bellman_ford_algorithm exampleGraph "A" = .ok (exampleDists, examplePreds) ∧
    alookup exampleDists "A" = some ((0 : Int) : WithTop Int) ∧
    alookup exampleDists "B" = some ((3 : Int) : WithTop Int) ∧
    alookup exampleDists "C" = some ((5 : Int) : WithTop Int) ∧
    alookup exampleDists "D" = some ((9 : Int) : WithTop Int) ∧
    alookup exampleDists "E" = some ((11 : Int) : WithTop Int) := by
  exact ⟨example_run_eq, rfl, rfl, rfl, rfl, rfl⟩

/-! ### Claim C9: determinism across invocations -/

/-- Claim C9: two invocations of bellman_ford_algorithm on the same graph
and source produce identical outcomes (the embedding is a pure function,
so both either raise the same error or return the same mappings). -/
theorem c9_deterministic (g : Graph) (s : Vertex)
    (r₁ r₂ : Except BFErr (DistMap × PredMap))
    (h₁ : bellman_ford_algorithm g s = r₁)
    (h₂ : bellman_ford_algorithm g s = r₂) : r₁ = r₂ := by
  rw [← h₁, ← h₂]

/-- Witness for C9 at a concrete input. -/
theorem c9_deterministic_witness :
    (Except.ok ([("A", (0 : Int))], [("A", none)]) :
        Except BFErr (DistMap × PredMap)) =
      .ok ([("A", (0 : Int))], [("A", none)]) :=
  c9_deterministic [("A", [])] "A" _ _ rfl rfl

/-! ### Claim C5 (corrected): an absent source does not raise -/

/-- Claim C5 as stated is false: with source Z absent from the key set of
the graph with single vertex A, the code does not raise a key error; it
silently adds Z with distance 0 and returns successfully. -/
theorem c5_counterexample :
    bellman_ford_algorithm [("A", [])] "Z" =
      .ok ([("A", (⊤ : WithTop Int)), ("Z", (0 : Int))], [("A", none)]) ∧
    bellman_ford_algorithm [("A", [])] "Z" ≠ .error .keyError := by
  refine ⟨rfl, ?_⟩
  intro hcon
  have hok : bellman_ford_algorithm [("A", [])] "Z" =
      .ok ([("A", (⊤ : WithTop Int)), ("Z", (0 : Int))], [("A", none)]) := rfl
  rw [hok] at hcon
  exact Except.noConfusion hcon

/-! ### Claim C6 (corrected): absent edge target, when distinct from the
source, raises a key error -/

/-- Claim C6 as stated is false: in the two-vertex graph {A:[(Z,1)], B:[]}
the edge target Z is absent from the key set, yet calling the algorithm
with source Z raises nothing: the source initialisation adds Z to the
distances dictionary, so the lookups all succeed. -/
theorem c6_counterexample :
    bellman_ford_algorithm [("A", [("Z", 1)]), ("B", [])] "Z" =
      .ok ([("A", (⊤ : WithTop Int)), ("B", (⊤ : WithTop Int)),
            ("Z", (0 : Int))],
           [("A", none), ("B", none)]) ∧
    bellman_ford_algorithm [("A", [("Z", 1)]), ("B", [])] "Z" ≠
      .error .keyError := by
  refine ⟨rfl, ?_⟩
  intro hcon
  have hok : bellman_ford_algorithm [("A", [("Z", 1)]), ("B", [])] "Z" =
      .ok ([("A", (⊤ : WithTop Int)), ("B", (⊤ : WithTop Int)),
            ("Z", (0 : Int))],
           [("A", none), ("B", none)]) := rfl
  rw [hok] at hcon
  exact Except.noConfusion hcon

theorem wsum_append (l₁ l₂ : List Edge) :
    wsum (l₁ ++ l₂) = wsum l₁ + wsum l₂ := by
  induction l₁ with
  | nil => simp [wsum]
  | cons e tl ih => simp [wsum, ih, add_assoc]

theorem walk_append {E : List Edge} {v : Vertex} :
    ∀ {l₁ : List Edge} {u : Vertex} {l₂ : List Edge},
      IsWalkFrom E u v (l₁ ++ l₂) ↔
        ∃ m, IsWalkFrom E u m l₁ ∧ IsWalkFrom E m v l₂ := by
  intro l₁
  induction l₁ with
  | nil =>
    intro u l₂
    constructor
    · intro h
      exact ⟨u, rfl, h⟩
    · rintro ⟨m, hm, h⟩
      cases hm
      exact h
  | cons e tl ih =>
    intro u l₂
    constructor
    · rintro ⟨he, hu, hw⟩
      obtain ⟨m, h1, h2⟩ := ih.mp hw
      exact ⟨m, ⟨he, hu, h1⟩, h2⟩
    · rintro ⟨m, ⟨he, hu, h1⟩, h2⟩
      exact ⟨he, hu, ih.mpr ⟨m, h1, h2⟩⟩

theorem walk_verts_concat {E : List Edge} :
    ∀ {l : List Edge} {u v : Vertex}, IsWalkFrom E u v l →
      ∃ D, walkVerts u l = D ++ [v] := by
  intro l
  induction l with
  | nil =>
    intro u v h
    cases h
    exact ⟨[], rfl⟩
  | cons e tl ih =>
    intro u v h
    obtain ⟨he, hu, hw⟩ := h
    obtain ⟨D, hD⟩ := ih hw
    refine ⟨u :: D, ?_⟩
    have : walkVerts u (e :: tl) = u :: walkVerts e.2.1 tl := by
      simp [walkVerts]
    rw [this, hD]
    rfl

theorem not_nodup_decomp {α : Type} :
    ∀ (L : List α), ¬ L.Nodup →
      ∃ (A : List α) (y : α) (B C : List α),
        L = A ++ [y] ++ B ++ [y] ++ C := by
  intro L
  induction L with
  | nil => intro h; exact absurd List.nodup_nil h
  | cons a T ih =>
    intro h
    rw [List.nodup_cons] at h
    by_cases hmem : a ∈ T
    · obtain ⟨B, C, hBC⟩ := List.append_of_mem hmem
      exact ⟨[], a, B, C, by simp [hBC]⟩
    · have hT : ¬ T.Nodup := fun hnd => h ⟨hmem, hnd⟩
      obtain ⟨A, y, B, C, hdec⟩ := ih hT
      exact ⟨a :: A, y, B, C, by simp [hdec]⟩

theorem walk_split_at_vertex {E : List Edge} {v y : Vertex} :
    ∀ (P : List Vertex) {u : Vertex} {l : List Edge} {Q : List Vertex},
      IsWalkFrom E u v l → walkVerts u l = P ++ y :: Q →
      ∃ l₁ l₂, l = l₁ ++ l₂ ∧ IsWalkFrom E u y l₁ ∧ IsWalkFrom E y v l₂ ∧
        walkVerts u l₁ = P ++ [y] ∧ walkVerts y l₂ = y :: Q := by
  intro P
  induction P with
  | nil =>
    intro u l Q hw hverts
    have h1 : u = y ∧ l.map (fun e => e.2.1) = Q := by
      have := hverts
      simp only [walkVerts, List.nil_append] at this
      exact ⟨List.head_eq_of_cons_eq this, List.tail_eq_of_cons_eq this⟩
    obtain ⟨rfl, hQ⟩ := h1
    exact ⟨[], l, rfl, rfl, hw, rfl, by simp [walkVerts, hQ]⟩
  | cons a P' ih =>
    intro u l Q hw hverts
    have h1 : u = a ∧ l.map (fun e => e.2.1) = P' ++ y :: Q := by
      have := hverts
      simp only [walkVerts, List.cons_append, List.append_assoc] at this
      exact ⟨List.head_eq_of_cons_eq this, List.tail_eq_of_cons_eq this⟩
    obtain ⟨rfl, hmap⟩ := h1
    cases l with
    | nil => simp at hmap
    | cons e l' =>
      obtain ⟨he, heu, hw'⟩ := hw
      have hverts' : walkVerts e.2.1 l' = P' ++ y :: Q := by
        simpa [walkVerts] using hmap
      obtain ⟨l₁, l₂, hl, hw1, hw2, hv1, hv2⟩ := ih hw' hverts'
      refine ⟨e :: l₁, l₂, by rw [hl]; rfl, ⟨he, heu, hw1⟩, hw2, ?_, hv2⟩
      have : walkVerts u (e :: l₁) = u :: walkVerts e.2.1 l₁ := by
        simp [walkVerts]
      rw [this, hv1]
      rfl

/-- A walk with a repeated vertex splits into a prefix, a nonempty closed
middle and a suffix. -/
theorem walk_dedup_step {E : List Edge} {u v : Vertex} {l : List Edge}
    (hw : IsWalkFrom E u v l) (hnd : ¬ (walkVerts u l).Nodup) :
    ∃ (y : Vertex) (l₁ l₂ l₃ : List Edge), l = l₁ ++ l₂ ++ l₃ ∧
      IsWalkFrom E u y l₁ ∧ IsWalkFrom E y y l₂ ∧ IsWalkFrom E y v l₃ ∧
      l₂ ≠ [] := by
  obtain ⟨A, y, B, C, hdec⟩ := not_nodup_decomp _ hnd
  have hdec1 : walkVerts u l = A ++ y :: (B ++ [y] ++ C) := by
    rw [hdec]; simp
  obtain ⟨l₁, r, hl, hw1, hwr, hv1, hvr⟩ := walk_split_at_vertex A hw hdec1
  have hvr2 : walkVerts y r = (y :: B) ++ y :: C := by
    rw [hvr]; simp
  obtain ⟨l₂, l₃, hr, hw2, hw3, hv2, hv3⟩ := walk_split_at_vertex (y :: B) hwr hvr2
  refine ⟨y, l₁, l₂, l₃, by rw [hl, hr, List.append_assoc], hw1, hw2, hw3, ?_⟩
  intro hnil
  rw [hnil] at hv2
  have : ([y] : List Vertex).length = ((y :: B) ++ [y]).length := by
    rw [← hv2]; rfl
  simp at this

/-- Under the no-reachable-negative-cycle hypothesis, every walk from the
source can be replaced by a vertex-distinct walk of no greater weight
(repeatedly removing closed subwalks, each of nonnegative weight). -/
theorem walk_shorten {g : Graph} {s : Vertex}
    (hNF : ¬ HasReachableNegWalk g s) :
    ∀ (n : Nat) (l : List Edge) (v : Vertex), l.length ≤ n →
      IsWalkFrom (edgeList g) s v l →
      ∃ l', IsWalkFrom (edgeList g) s v l' ∧ (walkVerts s l').Nodup ∧
        wsum l' ≤ wsum l := by
  intro n
  induction n with
  | zero =>
    intro l v hlen hw
    have : l = [] := List.eq_nil_of_length_eq_zero (Nat.le_zero.mp hlen)
    subst this
    exact ⟨[], hw, by simp [walkVerts], le_refl _⟩
  | succ n ih =>
    intro l v hlen hw
    by_cases hnd : (walkVerts s l).Nodup
    · exact ⟨l, hw, hnd, le_refl _⟩
    · obtain ⟨y, l₁, l₂, l₃, hl, hw1, hw2, hw3, hne⟩ := walk_dedup_step hw hnd
      have hge : 0 ≤ wsum l₂ := by
        by_contra hlt
        exact hNF ⟨y, l₂, ⟨l₁, hw1⟩, hw2, hne, lt_of_not_ge hlt⟩
      have hw' : IsWalkFrom (edgeList g) s v (l₁ ++ l₃) :=
        walk_append.mpr ⟨y, hw1, hw3⟩
      have hlen' : (l₁ ++ l₃).length ≤ n := by
        have h1 : l.length = l₁.length + l₂.length + l₃.length := by
          rw [hl]; simp only [List.length_append]
        have h2 : 1 ≤ l₂.length := List.length_pos.mpr hne
        have h3 : (l₁ ++ l₃).length = l₁.length + l₃.length := by
          simp only [List.length_append]
        omega
      obtain ⟨l', hw'', hnd', hws⟩ := ih (l₁ ++ l₃) v hlen' hw'
      refine ⟨l', hw'', hnd', ?_⟩
      have hsum : wsum l = wsum l₁ + wsum l₂ + wsum l₃ := by
        rw [hl, wsum_append, wsum_append]
      have : wsum (l₁ ++ l₃) = wsum l₁ + wsum l₃ := wsum_append l₁ l₃
      omega

/-- A reachable negative closed walk yields a reachable negative simple
cycle (repeatedly splitting at a repeated internal vertex). -/
theorem negwalk_negcycle {g : Graph} {s : Vertex}
    (h : HasReachableNegWalk g s) : HasReachableNegCycle g s := by
  obtain ⟨x, c, hreach, hw, hne, hlt⟩ := h
  suffices haux : ∀ (n : Nat) (x : Vertex) (c : List Edge), c.length ≤ n →
      Reachable g s x → IsWalkFrom (edgeList g) x x c → c ≠ [] →
      wsum c < 0 → HasReachableNegCycle g s by
    exact haux c.length x c (le_refl _) hreach hw hne hlt
  intro n
  induction n with
  | zero =>
    intro x c hlen hreach hw hne hlt
    exact absurd (List.eq_nil_of_length_eq_zero (Nat.le_zero.mp hlen)) hne
  | succ n ih =>
    intro x c hlen hreach hw hne hlt
    by_cases hnd : (walkVerts x c).dropLast.Nodup
    · exact ⟨x, c, hreach, hw, hne, hlt, hnd⟩
    · obtain ⟨D, hD⟩ := walk_verts_concat hw
      rw [hD, List.dropLast_concat] at hnd
      obtain ⟨A, y, B, C, hdec⟩ := not_nodup_decomp D hnd
      have hdec1 : walkVerts x c = A ++ y :: (B ++ [y] ++ (C ++ [x])) := by
        rw [hD, hdec]; simp
      obtain ⟨l₁, r, hl, hw1, hwr, hv1, hvr⟩ := walk_split_at_vertex A hw hdec1
      have hvr2 : walkVerts y r = (y :: B) ++ y :: (C ++ [x]) := by
        rw [hvr]; simp
      obtain ⟨l₂, l₃, hr, hw2, hw3, hv2, hv3⟩ :=
        walk_split_at_vertex (y :: B) hwr hvr2
      have hne2 : l₂ ≠ [] := by
        intro hnil
        rw [hnil] at hv2
        have : ([y] : List Vertex).length = ((y :: B) ++ [y]).length := by
          rw [← hv2]; rfl
        simp at this
      have hne3 : l₃ ≠ [] := by
        intro hnil
        rw [hnil] at hv3
        have : ([y] : List Vertex).length = (y :: (C ++ [x])).length := by
          rw [← hv3]; rfl
        simp at this
      have hlenc : c.length = l₁.length + l₂.length + l₃.length := by
        rw [hl, hr]; simp [List.length_append]; omega
      have hsum : wsum c = wsum l₁ + wsum l₂ + wsum l₃ := by
        rw [hl, hr, wsum_append, wsum_append]; ring
      by_cases hw2neg : wsum l₂ < 0
      · have hreachy : Reachable g s y := by
          obtain ⟨W, hW⟩ := hreach
          exact ⟨W ++ l₁, walk_append.mpr ⟨x, hW, hw1⟩⟩
        have hlen2 : l₂.length ≤ n := by
          have h3 : 1 ≤ l₃.length := List.length_pos.mpr hne3
          omega
        exact ih y l₂ hlen2 hreachy hw2 hne2 hw2neg
      · have hge : 0 ≤ wsum l₂ := le_of_not_lt hw2neg
        have hwc' : IsWalkFrom (edgeList g) x x (l₁ ++ l₃) :=
          walk_append.mpr ⟨y, hw1, hw3⟩
        have hlen' : (l₁ ++ l₃).length ≤ n := by
          have h2 : 1 ≤ l₂.length := List.length_pos.mpr hne2
          have h3 : (l₁ ++ l₃).length = l₁.length + l₃.length := by
            simp [List.length_append]
          omega
        have hne' : (l₁ ++ l₃) ≠ [] := by
          intro hnil
          exact hne3 (List.append_eq_nil.mp hnil).2
        have hlt' : wsum (l₁ ++ l₃) < 0 := by
          rw [wsum_append]; omega
        exact ih x (l₁ ++ l₃) hlen' hreach hwc' hne' hlt'

/-- With a key-complete graph, every vertex visited by a walk out of a key
is itself a key. -/
theorem walk_verts_mem_keys {g : Graph} (hkc : KeyComplete g) :
    ∀ {l : List Edge} {u v : Vertex}, u ∈ keys g →
      IsWalkFrom (edgeList g) u v l → ∀ z ∈ walkVerts u l, z ∈ keys g := by
  intro l
  induction l with
  | nil =>
    intro u v hu _ z hz
    simp [walkVerts] at hz
    rwa [hz]
  | cons e tl ih =>
    intro u v hu hw z hz
    obtain ⟨he, heu, hw'⟩ := hw
    have hz' : z = u ∨ z ∈ walkVerts e.2.1 tl := by
      simpa [walkVerts] using hz
    rcases hz' with rfl | hz'
    · exact hu
    · exact ih (hkc e he).2 hw' z hz'

/-- A vertex-distinct walk out of the source has at most |V| - 1 edges. -/
theorem nodup_walk_length_bound {g : Graph} {s v : Vertex} {l : List Edge}
    (hkc : KeyComplete g) (hs : s ∈ keys g)
    (hw : IsWalkFrom (edgeList g) s v l) (hnd : (walkVerts s l).Nodup) :
    l.length ≤ g.length - 1 := by
  have hsub : walkVerts s l ⊆ keys g := fun z hz =>
    walk_verts_mem_keys hkc hs hw z hz
  have hle : (walkVerts s l).length ≤ (keys g).length :=
    (List.subperm_of_subset hnd hsub).length_le
  have h1 : (walkVerts s l).length = l.length + 1 := by simp [walkVerts]
  have h2 : (keys g).length = g.length := by simp [keys]
  omega

/-! ### Basic facts about the instrumented run -/

theorem aset_isSome_of_mem {β : Type} (m : List (Vertex × β)) (k v : Vertex)
    (x : β) (hk : (alookup m k).isSome) :
    (alookup (aset m k x) v).isSome ↔ (alookup m v).isSome := by
  by_cases hv : v = k
  · subst hv; simp [alookup_aset_self, hk]
  · rw [alookup_aset_ne m k v x hv]

/-- Case analysis on one instrumented relaxation step. -/
theorem irelax_cases (σ : IState) (e : Edge) :
    irelax σ e = σ ∨
    ∃ du dv, alookup σ.d e.1 = some du ∧ alookup σ.d e.2.1 = some dv ∧
      du + (e.2.2 : WithTop Int) < dv ∧
      irelax σ e =
        { d := aset σ.d e.2.1 (du + (e.2.2 : WithTop Int)),
          p := aset σ.p e.2.1 (some e.1),
          stamp := fun x => if x = e.2.1 then σ.ctr else σ.stamp x,
          ctr := σ.ctr + 1 } := by
  rcases h1 : alookup σ.d e.1 with _ | du
  · left; simp [irelax, h1]
  · rcases h2 : alookup σ.d e.2.1 with _ | dv
    · left; simp [irelax, h1, h2]
    · by_cases hlt : du + (e.2.2 : WithTop Int) < dv
      · right
        exact ⟨du, dv, rfl, rfl, hlt, by simp [irelax, h1, h2, hlt]⟩
      · left; simp [irelax, h1, h2, hlt]

theorem irelax_dkeys (σ : IState) (e : Edge) (v : Vertex) :
    (alookup (irelax σ e).d v).isSome ↔ (alookup σ.d v).isSome := by
  rcases irelax_cases σ e with heq | ⟨du, dv, h1, h2, hlt, heq⟩
  · rw [heq]
  · rw [heq]
    exact aset_isSome_of_mem σ.d e.2.1 v _ (by simp [h2])

theorem irelax_pkeys (σ : IState) (e : Edge) (v : Vertex)
    (h : (alookup σ.p v).isSome) : (alookup (irelax σ e).p v).isSome := by
  rcases irelax_cases σ e with heq | ⟨du, dv, h1, h2, hlt, heq⟩
  · rw [heq]; exact h
  · rw [heq]
    exact (alookup_aset_isSome σ.p e.2.1 v (some e.1)).mpr (Or.inr h)

theorem irelaxList_dkeys :
    ∀ (es : List Edge) (σ : IState) (v : Vertex),
      (alookup (irelaxList es σ).d v).isSome ↔ (alookup σ.d v).isSome := by
  intro es
  induction es with
  | nil => intro σ v; exact Iff.rfl
  | cons e rest ih =>
    intro σ v
    exact (ih (irelax σ e) v).trans (irelax_dkeys σ e v)

theorem irounds_dkeys :
    ∀ (n : Nat) (es : List Edge) (σ : IState) (v : Vertex),
      (alookup (irounds n es σ).d v).isSome ↔ (alookup σ.d v).isSome := by
  intro n
  induction n with
  | zero => intro es σ v; exact Iff.rfl
  | succ n ih =>
    intro es σ v
    exact (ih es (irelaxList es σ) v).trans (irelaxList_dkeys es σ v)

/-- The outer loop peels passes from the back as well as from the front. -/
theorem irounds_succ_back :
    ∀ (n : Nat) (es : List Edge) (σ : IState),
      irounds (n + 1) es σ = irelaxList es (irounds n es σ) := by
  intro n
  induction n with
  | zero => intro es σ; rfl
  | succ n ih =>
    intro es σ
    have h1 : irounds (n + 2) es σ = irounds (n + 1) es (irelaxList es σ) := rfl
    rw [h1, ih es (irelaxList es σ)]
    rfl

/-! ### Correspondence of the Except-valued run with the instrumented run -/

theorem relaxEdge_eq (σ : IState) (e : Edge)
    (h1 : (alookup σ.d e.1).isSome) (h2 : (alookup σ.d e.2.1).isSome) :
    relaxEdge σ.d σ.p e = .ok ((irelax σ e).d, (irelax σ e).p) := by
  obtain ⟨du, hdu⟩ := Option.isSome_iff_exists.mp h1
  obtain ⟨dv, hdv⟩ := Option.isSome_iff_exists.mp h2
  by_cases hlt : du + (e.2.2 : WithTop Int) < dv
  · simp [relaxEdge, irelax, hdu, hdv, hlt]
  · simp [relaxEdge, irelax, hdu, hdv, hlt]

theorem relaxList_eq :
    ∀ (es : List Edge) (σ : IState), Covers σ.d es →
      relaxList es σ.d σ.p =
        .ok ((irelaxList es σ).d, (irelaxList es σ).p) := by
  intro es
  induction es with
  | nil => intro σ _; rfl
  | cons e rest ih =>
    intro σ h
    have he := h e (List.mem_cons_self e rest)
    have hstep : relaxList (e :: rest) σ.d σ.p =
        relaxList rest (irelax σ e).d (irelax σ e).p := by
      rw [relaxList, relaxEdge_eq σ e he.1 he.2]
    rw [hstep]
    have hcov : Covers (irelax σ e).d rest := by
      intro e2 he2
      have h2 := h e2 (List.mem_cons_of_mem _ he2)
      exact ⟨(irelax_dkeys σ e e2.1).mpr h2.1,
             (irelax_dkeys σ e e2.2.1).mpr h2.2⟩
    exact ih (irelax σ e) hcov

theorem relaxRounds_eq :
    ∀ (n : Nat) (es : List Edge) (σ : IState), Covers σ.d es →
      relaxRounds n es σ.d σ.p =
        .ok ((irounds n es σ).d, (irounds n es σ).p) := by
  intro n
  induction n with
  | zero => intro es σ _; rfl
  | succ n ih =>
    intro es σ h
    have hstep : relaxRounds (n + 1) es σ.d σ.p =
        relaxRounds n es (irelaxList es σ).d (irelaxList es σ).p := by
      rw [relaxRounds, relaxList_eq es σ h]
    rw [hstep]
    have hcov : Covers (irelaxList es σ).d es := by
      intro e2 he2
      have h2 := h e2 he2
      exact ⟨(irelaxList_dkeys es σ e2.1).mpr h2.1,
             (irelaxList_dkeys es σ e2.2.1).mpr h2.2⟩
    exact ih es (irelaxList es σ) hcov

/-! ### Monotonicity: distances never increase -/

theorem dle_refl (σ : IState) : DLeState σ σ := by
  intro v dv h
  exact ⟨dv, h, le_refl dv⟩

theorem dle_trans {σ₃ σ₂ σ : IState} (h32 : DLeState σ₃ σ₂)
    (h21 : DLeState σ₂ σ) : DLeState σ₃ σ := by
  intro v dv h
  obtain ⟨dv₂, h2, hle2⟩ := h21 v dv h
  obtain ⟨dv₃, h3, hle3⟩ := h32 v dv₂ h2
  exact ⟨dv₃, h3, le_trans hle3 hle2⟩

theorem irelax_dle (σ : IState) (e : Edge) : DLeState (irelax σ e) σ := by
  rcases irelax_cases σ e with heq | ⟨du, dv, h1, h2, hlt, heq⟩
  · rw [heq]; exact dle_refl σ
  · rw [heq]
    intro v dvv h
    by_cases hv : v = e.2.1
    · subst hv
      rw [h2] at h
      cases h
      exact ⟨du + (e.2.2 : WithTop Int), alookup_aset_self σ.d _ _, le_of_lt hlt⟩
    · exact ⟨dvv, by rw [alookup_aset_ne σ.d _ _ _ hv]; exact h, le_refl _⟩

theorem irelaxList_dle :
    ∀ (es : List Edge) (σ : IState), DLeState (irelaxList es σ) σ := by
  intro es
  induction es with
  | nil => intro σ; exact dle_refl σ
  | cons e rest ih =>
    intro σ
    exact dle_trans (ih (irelax σ e)) (irelax_dle σ e)

theorem irounds_dle :
    ∀ (n : Nat) (es : List Edge) (σ : IState), DLeState (irounds n es σ) σ := by
  intro n
  induction n with
  | zero => intro es σ; exact dle_refl σ
  | succ n ih =>
    intro es σ
    exact dle_trans (ih es (irelaxList es σ)) (irelaxList_dle es σ)

/-! ### The per-pass relaxation bound -/

theorem irelax_bound (σ : IState) (e : Edge) (du dv : WithTop Int)
    (h1 : alookup σ.d e.1 = some du) (h2 : alookup σ.d e.2.1 = some dv) :
    ∃ dv2, alookup (irelax σ e).d e.2.1 = some dv2 ∧
      dv2 ≤ du + (e.2.2 : WithTop Int) := by
  by_cases hlt : du + (e.2.2 : WithTop Int) < dv
  · have heq : irelax σ e =
        { d := aset σ.d e.2.1 (du + (e.2.2 : WithTop Int)),
          p := aset σ.p e.2.1 (some e.1),
          stamp := fun x => if x = e.2.1 then σ.ctr else σ.stamp x,
          ctr := σ.ctr + 1 } := by
      simp [irelax, h1, h2, hlt]
    rw [heq]
    exact ⟨du + (e.2.2 : WithTop Int), alookup_aset_self σ.d _ _, le_refl _⟩
  · have heq : irelax σ e = σ := by simp [irelax, h1, h2, hlt]
    rw [heq]
    exact ⟨dv, h2, not_lt.mp hlt⟩

theorem irelaxList_bound :
    ∀ (es : List Edge) (σ : IState) (e : Edge), e ∈ es →
      (alookup σ.d e.2.1).isSome →
      ∀ du, alookup σ.d e.1 = some du →
        ∃ dv2, alookup (irelaxList es σ).d e.2.1 = some dv2 ∧
          dv2 ≤ du + (e.2.2 : WithTop Int) := by
  intro es
  induction es with
  | nil => intro σ e he; exact absurd he (List.not_mem_nil e)
  | cons e0 rest ih =>
    intro σ e he htgt du hdu
    rcases List.mem_cons.mp he with rfl | hmem
    · obtain ⟨dv, hdv⟩ := Option.isSome_iff_exists.mp htgt
      obtain ⟨dv2, hdv2, hle⟩ := irelax_bound σ e du dv hdu hdv
      obtain ⟨dv3, hdv3, hle3⟩ :=
        irelaxList_dle rest (irelax σ e) e.2.1 dv2 hdv2
      exact ⟨dv3, hdv3, le_trans hle3 hle⟩
    · obtain ⟨du2, hdu2, hle2⟩ := irelax_dle σ e0 e.1 du hdu
      have htgt2 : (alookup (irelax σ e0).d e.2.1).isSome :=
        (irelax_dkeys σ e0 e.2.1).mpr htgt
      obtain ⟨dv2, hdv2, hle⟩ := ih (irelax σ e0) e hmem htgt2 du2 hdu2
      refine ⟨dv2, hdv2, le_trans hle ?_⟩
      exact add_le_add_right hle2 _

/-! ### Initial-state facts -/

theorem initD_lookup (g : Graph) (s v : Vertex) :
    alookup (initD g s) v =
      if v = s then some ((0 : Int) : WithTop Int)
      else if v ∈ keys g then some ⊤ else none := by
  by_cases hv : v = s
  · subst hv
    simp [initD, alookup_aset_self]
  · rw [initD, alookup_aset_ne _ _ _ _ hv, alookup_map_const, if_neg hv]

theorem initP_lookup (g : Graph) (v : Vertex) :
    alookup (initP g) v = if v ∈ keys g then some none else none := by
  rw [initP, alookup_map_const]

theorem initState_covers {g : Graph} {s : Vertex} (hkc : KeyComplete g) :
    Covers (initD g s) (edgeList g) := by
  intro e he
  obtain ⟨h1, h2⟩ := hkc e he
  constructor
  · rw [initD_lookup]
    by_cases hv : e.1 = s <;> simp [hv, h1]
  · rw [initD_lookup]
    by_cases hv : e.2.1 = s <;> simp [hv, h2]

/-! ### The walk upper bound after k passes -/

theorem irounds_walk_bound {g : Graph} {s : Vertex}
    (hcov : Covers (initD g s) (edgeList g)) :
    ∀ (k : Nat) (v : Vertex) (l : List Edge),
      IsWalkFrom (edgeList g) s v l → l.length ≤ k →
      ∃ dv, alookup (irounds k (edgeList g) (initState g s)).d v = some dv ∧
        dv ≤ ((wsum l : Int) : WithTop Int) := by
  intro k
  induction k with
  | zero =>
    intro v l hw hlen
    have hnil : l = [] := List.eq_nil_of_length_eq_zero (Nat.le_zero.mp hlen)
    subst hnil
    cases hw
    refine ⟨((0 : Int) : WithTop Int), ?_, by simp [wsum]⟩
    show alookup (initD g s) s = some ((0 : Int) : WithTop Int)
    rw [initD_lookup, if_pos rfl]
  | succ k ih =>
    intro v l hw hlen
    rcases List.eq_nil_or_concat l with hnil | ⟨L, e, hcat⟩
    · subst hnil
      cases hw
      have h0 : alookup (initState g s).d s = some ((0 : Int) : WithTop Int) := by
        show alookup (initD g s) s = _
        rw [initD_lookup, if_pos rfl]
      obtain ⟨dv, hdv, hle⟩ :=
        irounds_dle (k + 1) (edgeList g) (initState g s) s _ h0
      exact ⟨dv, hdv, by simpa [wsum] using hle⟩
    · rw [List.concat_eq_append] at hcat
      subst hcat
      obtain ⟨m, hwL, hwe⟩ := walk_append.mp hw
      obtain ⟨he, he1, htl⟩ := hwe
      have hv : e.2.1 = v := htl
      have hlenL : L.length ≤ k := by
        have : (L ++ [e]).length = L.length + 1 := by simp
        omega
      obtain ⟨du, hdu, hduL⟩ := ih m L hwL hlenL
      rw [irounds_succ_back]
      have htgt : (alookup (irounds k (edgeList g) (initState g s)).d
          e.2.1).isSome := by
        rw [irounds_dkeys]
        exact (hcov e he).2
      have hdu' : alookup (irounds k (edgeList g) (initState g s)).d e.1 =
          some du := by rw [he1]; exact hdu
      obtain ⟨dv2, hdv2, hle2⟩ :=
        irelaxList_bound (edgeList g) (irounds k (edgeList g) (initState g s))
          e he htgt du hdu'
      rw [hv] at hdv2
      refine ⟨dv2, hdv2, le_trans hle2 ?_⟩
      have hws : wsum (L ++ [e]) = wsum L + e.2.2 := by
        rw [wsum_append]; simp [wsum]

      rw [hws]
      calc du + (e.2.2 : WithTop Int)
          ≤ ((wsum L : Int) : WithTop Int) + (e.2.2 : WithTop Int) :=
            add_le_add_right hduL _
        _ = ((wsum L + e.2.2 : Int) : WithTop Int) := by
            rw [WithTop.coe_add]

/-- After the |V|-1 passes, the distance of `v` is bounded by the weight
of every walk from the source, provided no reachable negative cycle. -/
theorem finalState_dist_le_walk {g : Graph} {s : Vertex}
    (hkc : KeyComplete g) (hs : s ∈ keys g)
    (hNF : ¬ HasReachableNegWalk g s) {v : Vertex} {l : List Edge}
    (hw : IsWalkFrom (edgeList g) s v l) :
    ∃ dv, alookup (finalState g s).d v = some dv ∧
      dv ≤ ((wsum l : Int) : WithTop Int) := by
  obtain ⟨l2, hw2, hnd2, hws2⟩ := walk_shorten hNF l.length l v (le_refl _) hw
  have hlen2 : l2.length ≤ g.length - 1 :=
    nodup_walk_length_bound hkc hs hw2 hnd2
  obtain ⟨dv, hdv, hle⟩ :=
    irounds_walk_bound (initState_covers hkc) (g.length - 1) v l2 hw2 hlen2
  exact ⟨dv, hdv, le_trans hle (WithTop.coe_le_coe.mpr hws2)⟩

/-! ### Unfolding lemmas for the match-based definitions -/

theorem checkList_cons_some (e : Edge) (rest : List Edge) (d : DistMap)
    (du dv : WithTop Int) (h1 : alookup d e.1 = some du)
    (h2 : alookup d e.2.1 = some dv) :
    checkList (e :: rest) d =
      if du + (e.2.2 : WithTop Int) < dv then .error .negCycle
      else checkList rest d := by
  rw [checkList, h1, h2]

theorem checkList_cons_none (e : Edge) (rest : List Edge) (d : DistMap)
    (h : alookup d e.1 = none ∨ alookup d e.2.1 = none) :
    checkList (e :: rest) d = .error .keyError := by
  rcases h with h | h
  · rcases h2 : alookup d e.2.1 with _ | dv
    · rw [checkList, h, h2]
    · rw [checkList, h, h2]
  · rcases h1 : alookup d e.1 with _ | du
    · rw [checkList, h1, h]
    · rw [checkList, h1, h]

theorem relaxEdge_some (d : DistMap) (p : PredMap) (e : Edge)
    (du dv : WithTop Int) (h1 : alookup d e.1 = some du)
    (h2 : alookup d e.2.1 = some dv) :
    relaxEdge d p e =
      if du + (e.2.2 : WithTop Int) < dv then
        .ok (aset d e.2.1 (du + (e.2.2 : WithTop Int)),
             aset p e.2.1 (some e.1))
      else .ok (d, p) := by
  rw [relaxEdge, h1, h2]

theorem relaxEdge_none (d : DistMap) (p : PredMap) (e : Edge)
    (h : alookup d e.1 = none ∨ alookup d e.2.1 = none) :
    relaxEdge d p e = .error .keyError := by
  rcases h with h | h
  · rcases h2 : alookup d e.2.1 with _ | dv
    · rw [relaxEdge, h, h2]
    · rw [relaxEdge, h, h2]
  · rcases h1 : alookup d e.1 with _ | du
    · rw [relaxEdge, h1, h]
    · rw [relaxEdge, h1, h]

theorem bf_rounds_ok {g : Graph} {s : Vertex} {d : DistMap} {p : PredMap}
    (hR : relaxRounds (g.length - 1) (edgeList g) (initD g s) (initP g) =
      .ok (d, p)) :
    bellman_ford_algorithm g s =
      match checkList (edgeList g) d with
      | .ok _ => .ok (d, p)
      | .error err => .error err := by
  rw [bellman_ford_algorithm, hR]

theorem bf_rounds_err {g : Graph} {s : Vertex} {err : BFErr}
    (hR : relaxRounds (g.length - 1) (edgeList g) (initD g s) (initP g) =
      .error err) :
    bellman_ford_algorithm g s = .error err := by
  rw [bellman_ford_algorithm, hR]

/-! ### The cycle-check pass -/

theorem checkList_ok_fp :
    ∀ (es : List Edge) (d : DistMap), checkList es d = .ok () →
      FixedPoint d es := by
  intro es
  induction es with
  | nil => intro d _ e he; exact absurd he (List.not_mem_nil e)
  | cons e0 rest ih =>
    intro d hok e he
    rcases h1 : alookup d e0.1 with _ | du
    · rw [checkList_cons_none e0 rest d (Or.inl h1)] at hok
      exact Except.noConfusion hok
    · rcases h2 : alookup d e0.2.1 with _ | dv
      · rw [checkList_cons_none e0 rest d (Or.inr h2)] at hok
        exact Except.noConfusion hok
      · rw [checkList_cons_some e0 rest d du dv h1 h2] at hok
        by_cases hlt : du + (e0.2.2 : WithTop Int) < dv
        · rw [if_pos hlt] at hok
          exact Except.noConfusion hok
        · rw [if_neg hlt] at hok
          rcases List.mem_cons.mp he with rfl | hmem
          · exact ⟨du, dv, h1, h2, not_lt.mp hlt⟩
          · exact ih d hok e hmem

theorem checkList_of_fp :
    ∀ (es : List Edge) (d : DistMap), FixedPoint d es →
      checkList es d = .ok () := by
  intro es
  induction es with
  | nil => intro d _; rfl
  | cons e0 rest ih =>
    intro d hfp
    obtain ⟨du, dv, h1, h2, hle⟩ := hfp e0 (List.mem_cons_self e0 rest)
    rw [checkList_cons_some e0 rest d du dv h1 h2, if_neg (not_lt.mpr hle)]
    exact ih d (fun e he => hfp e (List.mem_cons_of_mem _ he))

theorem checkList_cases :
    ∀ (es : List Edge) (d : DistMap), Covers d es →
      checkList es d = .ok () ∨ checkList es d = .error .negCycle := by
  intro es
  induction es with
  | nil => intro d _; left; rfl
  | cons e0 rest ih =>
    intro d hcov
    obtain ⟨h1s, h2s⟩ := hcov e0 (List.mem_cons_self e0 rest)
    obtain ⟨du, h1⟩ := Option.isSome_iff_exists.mp h1s
    obtain ⟨dv, h2⟩ := Option.isSome_iff_exists.mp h2s
    rw [checkList_cons_some e0 rest d du dv h1 h2]
    by_cases hlt : du + (e0.2.2 : WithTop Int) < dv
    · right; rw [if_pos hlt]
    · rw [if_neg hlt]
      exact ih d (fun e he => hcov e (List.mem_cons_of_mem _ he))

/-! ### Key-set preservation along the Except-valued run -/

theorem relaxEdge_ok_dkeys {d : DistMap} {p : PredMap} {e : Edge}
    {d2 : DistMap} {p2 : PredMap}
    (hok : relaxEdge d p e = .ok (d2, p2)) (v : Vertex) :
    (alookup d2 v).isSome ↔ (alookup d v).isSome := by
  rcases h1 : alookup d e.1 with _ | du
  · rw [relaxEdge_none d p e (Or.inl h1)] at hok
    exact Except.noConfusion hok
  · rcases h2 : alookup d e.2.1 with _ | dv
    · rw [relaxEdge_none d p e (Or.inr h2)] at hok
      exact Except.noConfusion hok
    · rw [relaxEdge_some d p e du dv h1 h2] at hok
      by_cases hlt : du + (e.2.2 : WithTop Int) < dv
      · rw [if_pos hlt] at hok
        simp only [Except.ok.injEq, Prod.mk.injEq] at hok
        rw [← hok.1]
        exact aset_isSome_of_mem d e.2.1 v _ (by simp [h2])
      · rw [if_neg hlt] at hok
        simp only [Except.ok.injEq, Prod.mk.injEq] at hok
        rw [← hok.1]

theorem relaxList_ok_dkeys :
    ∀ (es : List Edge) (d : DistMap) (p : PredMap) (d2 : DistMap)
      (p2 : PredMap), relaxList es d p = .ok (d2, p2) → ∀ v,
      (alookup d2 v).isSome ↔ (alookup d v).isSome := by
  intro es
  induction es with
  | nil =>
    intro d p d2 p2 hok v
    rw [relaxList] at hok
    simp only [Except.ok.injEq, Prod.mk.injEq] at hok
    rw [← hok.1]
  | cons e rest ih =>
    intro d p d2 p2 hok v
    rcases hre : relaxEdge d p e with err | dp1
    · rw [relaxList, hre] at hok
      exact Except.noConfusion hok
    · obtain ⟨d1, p1⟩ := dp1
      rw [relaxList, hre] at hok
      exact (ih d1 p1 d2 p2 hok v).trans (relaxEdge_ok_dkeys hre v)

theorem relaxRounds_ok_dkeys :
    ∀ (n : Nat) (es : List Edge) (d : DistMap) (p : PredMap) (d2 : DistMap)
      (p2 : PredMap), relaxRounds n es d p = .ok (d2, p2) → ∀ v,
      (alookup d2 v).isSome ↔ (alookup d v).isSome := by
  intro n
  induction n with
  | zero =>
    intro es d p d2 p2 hok v
    rw [relaxRounds] at hok
    simp only [Except.ok.injEq, Prod.mk.injEq] at hok
    rw [← hok.1]
  | succ n ih =>
    intro es d p d2 p2 hok v
    rcases hrl : relaxList es d p with err | dp1
    · rw [relaxRounds, hrl] at hok
      exact Except.noConfusion hok
    · obtain ⟨d1, p1⟩ := dp1
      rw [relaxRounds, hrl] at hok
      exact (ih es d1 p1 d2 p2 hok v).trans
        (relaxList_ok_dkeys es d p d1 p1 hrl v)

/-! ### Shape of the algorithm's result -/

/-- A successful run forces the key conditions, lands exactly on the
instrumented final state, and satisfies the fixed-point postcondition. -/
theorem bf_ok_shape {g : Graph} {s : Vertex} {r : DistMap × PredMap}
    (hok : bellman_ford_algorithm g s = .ok r) :
    Covers (initD g s) (edgeList g) ∧ r.1 = (finalState g s).d ∧
      r.2 = (finalState g s).p ∧ FixedPoint r.1 (edgeList g) := by
  rcases hR : relaxRounds (g.length - 1) (edgeList g) (initD g s) (initP g)
    with err | dp
  · rw [bf_rounds_err hR] at hok
    exact Except.noConfusion hok
  · obtain ⟨d, p⟩ := dp
    rw [bf_rounds_ok hR] at hok
    rcases hC : checkList (edgeList g) d with err | u
    · rw [hC] at hok
      exact Except.noConfusion hok
    · rw [hC] at hok
      have hok2 : (Except.ok (d, p) : Except BFErr (DistMap × PredMap)) =
          .ok r := hok
      injection hok2 with h
      obtain rfl : r = (d, p) := h.symm
      cases u
      have hfp : FixedPoint d (edgeList g) := checkList_ok_fp _ _ hC
      have hkeys := relaxRounds_ok_dkeys _ _ _ _ _ _ hR
      have hcov : Covers (initD g s) (edgeList g) := by
        intro e he
        obtain ⟨du, dv, h1, h2, _⟩ := hfp e he
        exact ⟨(hkeys e.1).mp (by simp [h1]), (hkeys e.2.1).mp (by simp [h2])⟩
      have hfinal : relaxRounds (g.length - 1) (edgeList g) (initD g s)
          (initP g) = .ok ((finalState g s).d, (finalState g s).p) :=
        relaxRounds_eq (g.length - 1) (edgeList g) (initState g s) hcov
      rw [hR] at hfinal
      simp only [Except.ok.injEq, Prod.mk.injEq] at hfinal
      exact ⟨hcov, hfinal.1, hfinal.2, hfp⟩

/-- With the key conditions and the fixed point reached, the run succeeds
and returns the final state. -/
theorem bf_ok_of_fp {g : Graph} {s : Vertex}
    (hcov : Covers (initD g s) (edgeList g))
    (hfp : FixedPoint (finalState g s).d (edgeList g)) :
    bellman_ford_algorithm g s =
      .ok ((finalState g s).d, (finalState g s).p) := by
  have hrr : relaxRounds (g.length - 1) (edgeList g) (initD g s) (initP g) =
      .ok ((finalState g s).d, (finalState g s).p) :=
    relaxRounds_eq (g.length - 1) (edgeList g) (initState g s) hcov
  rw [bf_rounds_ok hrr, checkList_of_fp _ _ hfp]

/-- With the key conditions but the fixed point not reached, the run
raises the negative-cycle error. -/
theorem bf_negcycle_of_not_fp {g : Graph} {s : Vertex}
    (hcov : Covers (initD g s) (edgeList g))
    (hnfp : ¬ FixedPoint (finalState g s).d (edgeList g)) :
    bellman_ford_algorithm g s = .error .negCycle := by
  have hrr : relaxRounds (g.length - 1) (edgeList g) (initD g s) (initP g) =
      .ok ((finalState g s).d, (finalState g s).p) :=
    relaxRounds_eq (g.length - 1) (edgeList g) (initState g s) hcov
  have hcovf : Covers (finalState g s).d (edgeList g) := by
    intro e he
    have h := hcov e he
    exact ⟨(irounds_dkeys _ _ _ e.1).mpr h.1,
           (irounds_dkeys _ _ _ e.2.1).mpr h.2⟩
  rcases checkList_cases (edgeList g) (finalState g s).d hcovf with hck | hck
  · exact absurd (checkList_ok_fp _ _ hck) hnfp
  · rw [bf_rounds_ok hrr, hck]
/-! ### Invariant helper lemmas -/

theorem lt_add_finite {du dv : WithTop Int} {w : Int}
    (hlt : du + (w : WithTop Int) < dv) :
    ∃ du2 : Int, du = (du2 : WithTop Int) := by
  cases du with
  | top =>
    rw [WithTop.top_add] at hlt
    exact absurd hlt (not_top_lt)
  | coe a => exact ⟨a, rfl⟩

theorem sound_finite {g : Graph} {s : Vertex} {σ : IState} (hInv : Inv g s σ)
    {x : Vertex} {a : Int} (h : alookup σ.d x = some ((a : Int) : WithTop Int)) :
    ∃ l, IsWalkFrom (edgeList g) s x l ∧ wsum l = a := by
  rcases hInv.sound x _ h with htop | ⟨l, hw, hcoe⟩
  · exact absurd htop (WithTop.coe_ne_top)
  · exact ⟨l, hw, WithTop.coe_inj.mp hcoe⟩

/-- Under no reachable negative walk, no relaxation can strictly improve
the source entry. -/
theorem no_relax_into_src {g : Graph} {s : Vertex} {σ : IState}
    (hInv : Inv g s σ) (hNF : ¬ HasReachableNegWalk g s) {e : Edge}
    (he : e ∈ edgeList g) {du dv : WithTop Int}
    (h1 : alookup σ.d e.1 = some du) (h2 : alookup σ.d e.2.1 = some dv)
    (hlt : du + (e.2.2 : WithTop Int) < dv) : e.2.1 ≠ s := by
  intro hvs
  have hsz := hInv.srcZero hNF
  rw [hvs, hsz] at h2
  injection h2 with h2
  subst h2
  obtain ⟨du2, rfl⟩ := lt_add_finite hlt
  obtain ⟨l, hwl, hws⟩ := sound_finite hInv h1
  have hlt2 : du2 + e.2.2 < 0 := by
    rw [← WithTop.coe_add] at hlt
    exact_mod_cast hlt
  apply hNF
  refine ⟨s, l ++ [e], ⟨[], rfl⟩, ?_, by simp, ?_⟩
  · exact walk_append.mpr ⟨e.1, hwl, ⟨he, rfl, hvs⟩⟩
  · rw [wsum_append]
    simp [wsum]
    omega

/-- Under no reachable negative walk, no self-loop edge can relax. -/
theorem no_relax_self {g : Graph} {s : Vertex} {σ : IState}
    (hInv : Inv g s σ) (hNF : ¬ HasReachableNegWalk g s) {e : Edge}
    (he : e ∈ edgeList g) {du dv : WithTop Int}
    (h1 : alookup σ.d e.1 = some du) (h2 : alookup σ.d e.2.1 = some dv)
    (hlt : du + (e.2.2 : WithTop Int) < dv) : e.1 ≠ e.2.1 := by
  intro heq
  rw [← heq, h1] at h2
  injection h2 with h2
  subst h2
  obtain ⟨du2, rfl⟩ := lt_add_finite hlt
  have hwneg : e.2.2 < 0 := by
    have : ((du2 + e.2.2 : Int) : WithTop Int) < (du2 : WithTop Int) := by
      rw [WithTop.coe_add]
      exact hlt
    have h3 : du2 + e.2.2 < du2 := by exact_mod_cast this
    omega
  obtain ⟨l, hwl, hws⟩ := sound_finite hInv h1
  apply hNF
  refine ⟨e.1, [e], ⟨l, hwl⟩, ⟨he, rfl, heq.symm⟩, by simp, ?_⟩
  simp [wsum]
  omega

/-- The invariant holds in the initial state. -/
theorem inv_init (g : Graph) (s : Vertex) : Inv g s (initState g s) := by
  refine ⟨?_, ?_, ?_, ?_, ?_, ?_, ?_, ?_⟩
  · intro v
    show (alookup (initD g s) v).isSome ↔ _
    rw [initD_lookup]
    by_cases hv : v = s
    · simp [hv]
    · by_cases hm : v ∈ keys g <;> simp [hv, hm]
  · intro v hv
    show (alookup (initP g) v).isSome
    rw [initP_lookup, if_pos hv]
    rfl
  · intro v dv h
    rw [show (initState g s).d = initD g s from rfl, initD_lookup] at h
    by_cases hv : v = s
    · subst hv
      rw [if_pos rfl] at h
      injection h with h
      right
      exact ⟨[], rfl, h⟩
    · rw [if_neg hv] at h
      by_cases hm : v ∈ keys g
      · rw [if_pos hm] at h
        injection h with h
        exact Or.inl h.symm
      · rw [if_neg hm] at h
        exact Option.noConfusion h
  · intro v
    show (0 : Nat) < 1
    omega
  · intro _ x y h
    rw [show (initState g s).p = initP g from rfl, initP_lookup] at h
    by_cases hm : x ∈ keys g
    · rw [if_pos hm] at h
      injection h with h
      exact Option.noConfusion h
    · rw [if_neg hm] at h
      exact Option.noConfusion h
  · intro x h
    rw [show (initState g s).p = initP g from rfl, initP_lookup] at h
    by_cases hm : x ∈ keys g
    · by_cases hx : x = s
      · exact Or.inl hx
      · right
        show alookup (initD g s) x = some ⊤
        rw [initD_lookup, if_neg hx, if_pos hm]
    · rw [if_neg hm] at h
      exact Option.noConfusion h
  · intro _
    show alookup (initD g s) s = _
    rw [initD_lookup, if_pos rfl]
  · intro _ hs
    show alookup (initP g) s = some none
    rw [initP_lookup, if_pos hs]

/-- The invariant is preserved by one instrumented relaxation step. -/
theorem inv_irelax {g : Graph} {s : Vertex} {σ : IState} (hInv : Inv g s σ)
    {e : Edge} (he : e ∈ edgeList g) : Inv g s (irelax σ e) := by
  rcases irelax_cases σ e with heq | ⟨du, dv, h1, h2, hlt, heq⟩
  · rw [heq]; exact hInv
  · obtain ⟨du2, rfl⟩ := lt_add_finite hlt
    have hd : (irelax σ e).d =
        aset σ.d e.2.1 ((du2 : WithTop Int) + (e.2.2 : WithTop Int)) := by
      rw [heq]
    have hp : (irelax σ e).p = aset σ.p e.2.1 (some e.1) := by rw [heq]
    have hst : ∀ x, (irelax σ e).stamp x =
        if x = e.2.1 then σ.ctr else σ.stamp x := by intro x; rw [heq]
    have hctr : (irelax σ e).ctr = σ.ctr + 1 := by rw [heq]
    refine ⟨?_, ?_, ?_, ?_, ?_, ?_, ?_, ?_⟩
    · intro x
      rw [hd, aset_isSome_of_mem σ.d e.2.1 x _ (by simp [h2])]
      exact hInv.dkeys x
    · intro x hx
      rw [hp]
      exact (alookup_aset_isSome σ.p e.2.1 x _).mpr (Or.inr (hInv.pkeys x hx))
    · intro x dx h
      rw [hd] at h
      by_cases hx : x = e.2.1
      · subst hx
        rw [alookup_aset_self] at h
        injection h with h
        right
        obtain ⟨l, hwl, hws⟩ := sound_finite hInv h1
        refine ⟨l ++ [e], walk_append.mpr ⟨e.1, hwl, ⟨he, rfl, rfl⟩⟩, ?_⟩
        have hws2 : wsum (l ++ [e]) = du2 + e.2.2 := by
          rw [wsum_append]
          simp [wsum]
          omega
        rw [hws2, WithTop.coe_add]
        exact h
      · rw [alookup_aset_ne σ.d e.2.1 x _ hx] at h
        exact hInv.sound x dx h
    · intro x
      rw [hst x, hctr]
      by_cases hx : x = e.2.1
      · simp [hx]
      · rw [if_neg hx]
        have := hInv.ctrBig x
        omega
    · intro hNF x y hpx
      have hss : e.1 ≠ e.2.1 := no_relax_self hInv hNF he h1 h2 hlt
      rw [hp] at hpx
      by_cases hx : x = e.2.1
      · subst hx
        rw [alookup_aset_self] at hpx
        have hy : y = e.1 := by
          injection hpx with h'
          injection h' with h''
          exact h''.symm
        subst hy
        refine ⟨e.2.2, du2 + e.2.2, du2, ?_, ?_, ?_, ?_, ?_, ?_⟩
        · have hee : (e.1, e.2.1, e.2.2) = e := rfl
          rw [hee]
          exact he
        · rw [hd, alookup_aset_self, WithTop.coe_add]
        · rw [hd, alookup_aset_ne σ.d e.2.1 e.1 _ hss]
          exact h1
        · rw [hst e.1, hst e.2.1, if_neg hss, if_pos rfl]
          have := hInv.ctrBig e.1
          omega
        · intro _
          rfl
        · rw [hst e.1, hst e.2.1, if_neg hss, if_pos rfl]
          intro habs
          have := hInv.ctrBig e.1
          omega
      · rw [alookup_aset_ne σ.p e.2.1 x _ hx] at hpx
        obtain ⟨w2, dx, dy, hedge, hdx, hdy, hstne, himp1, himp2⟩ :=
          hInv.predSome hNF x y hpx
        by_cases hy : y = e.2.1
        · subst hy
          have hdveq : dv = (dy : WithTop Int) := by
            rw [h2] at hdy
            injection hdy
          have hlt2 : du2 + e.2.2 < dy := by
            rw [hdveq, ← WithTop.coe_add] at hlt
            exact_mod_cast hlt
          have hold : dy + w2 ≤ dx := by
            rcases lt_or_gt_of_ne hstne with hc | hc
            · exact le_of_eq (himp1 hc).symm
            · exact le_of_lt (himp2 hc)
          refine ⟨w2, dx, du2 + e.2.2, hedge, ?_, ?_, ?_, ?_, ?_⟩
          · rw [hd, alookup_aset_ne σ.d e.2.1 x _ hx]
            exact hdx
          · rw [hd, alookup_aset_self, WithTop.coe_add]
          · rw [hst e.2.1, hst x, if_pos rfl, if_neg hx]
            have := hInv.ctrBig x
            omega
          · rw [hst e.2.1, hst x, if_pos rfl, if_neg hx]
            intro habs
            have := hInv.ctrBig x
            omega
          · intro _
            omega
        · refine ⟨w2, dx, dy, hedge, ?_, ?_, ?_, ?_, ?_⟩
          · rw [hd, alookup_aset_ne σ.d e.2.1 x _ hx]
            exact hdx
          · rw [hd, alookup_aset_ne σ.d e.2.1 y _ hy]
            exact hdy
          · rw [hst y, hst x, if_neg hy, if_neg hx]
            exact hstne
          · rw [hst y, hst x, if_neg hy, if_neg hx]
            exact himp1
          · rw [hst y, hst x, if_neg hy, if_neg hx]
            exact himp2
    · intro x hpx
      rw [hp] at hpx
      by_cases hx : x = e.2.1
      · subst hx
        rw [alookup_aset_self] at hpx
        injection hpx with h'
        exact Option.noConfusion h'
      · rw [alookup_aset_ne σ.p e.2.1 x _ hx] at hpx
        rcases hInv.predNone x hpx with h | h
        · exact Or.inl h
        · right
          rw [hd, alookup_aset_ne σ.d e.2.1 x _ hx]
          exact h
    · intro hNF
      have hvs : e.2.1 ≠ s := no_relax_into_src hInv hNF he h1 h2 hlt
      rw [hd, alookup_aset_ne σ.d e.2.1 s _ (Ne.symm hvs)]
      exact hInv.srcZero hNF
    · intro hNF hs
      have hvs : e.2.1 ≠ s := no_relax_into_src hInv hNF he h1 h2 hlt
      rw [hp, alookup_aset_ne σ.p e.2.1 s _ (Ne.symm hvs)]
      exact hInv.srcPred hNF hs

/-- The invariant is preserved by a full pass. -/
theorem inv_irelaxList {g : Graph} {s : Vertex} :
    ∀ (es : List Edge) (σ : IState), Inv g s σ →
      (∀ e ∈ es, e ∈ edgeList g) → Inv g s (irelaxList es σ) := by
  intro es
  induction es with
  | nil => intro σ hInv _; exact hInv
  | cons e rest ih =>
    intro σ hInv hsub
    exact ih (irelax σ e) (inv_irelax hInv (hsub e (List.mem_cons_self e rest)))
      (fun e2 he2 => hsub e2 (List.mem_cons_of_mem _ he2))

/-- The invariant is preserved by the outer loop. -/
theorem inv_irounds {g : Graph} {s : Vertex} :
    ∀ (n : Nat) (σ : IState), Inv g s σ →
      Inv g s (irounds n (edgeList g) σ) := by
  intro n
  induction n with
  | zero => intro σ hInv; exact hInv
  | succ n ih =>
    intro σ hInv
    exact ih (irelaxList (edgeList g) σ)
      (inv_irelaxList (edgeList g) σ hInv (fun e he => he))

/-- The invariant holds in the final state. -/
theorem inv_final (g : Graph) (s : Vertex) : Inv g s (finalState g s) :=
  inv_irounds (g.length - 1) (initState g s) (inv_init g s)

/-- Every edge of the flattened list starts at a key of the graph. -/
theorem edge_src_mem : ∀ (g : Graph) (e : Edge), e ∈ edgeList g →
    e.1 ∈ keys g := by
  intro g
  induction g with
  | nil => intro e he; exact absurd he (List.not_mem_nil e)
  | cons hd tl ih =>
    intro e he
    obtain ⟨u, adj⟩ := hd
    rw [edgeList] at he
    rcases List.mem_append.mp he with h | h
    · obtain ⟨q, hq, rfl⟩ := List.mem_map.mp h
      simp [keys]
    · have h2 := ih e h
      simp only [keys, List.map_cons, List.mem_cons]
      right
      exact h2

/-- Fixed-point propagation: the triangle inequality telescopes along any
walk. -/
theorem fp_walk_le {g : Graph} {d : DistMap}
    (hfp : FixedPoint d (edgeList g)) :
    ∀ (l : List Edge) (u v : Vertex), IsWalkFrom (edgeList g) u v l →
      ∀ du, alookup d u = some du →
      ∃ dv, alookup d v = some dv ∧
        dv ≤ du + ((wsum l : Int) : WithTop Int) := by
  intro l
  induction l with
  | nil =>
    intro u v hw du hdu
    cases hw
    refine ⟨du, hdu, ?_⟩
    have h0 : ((wsum [] : Int) : WithTop Int) = 0 := by simp [wsum]
    rw [h0, add_zero]
  | cons e rest ih =>
    intro u v hw du hdu
    obtain ⟨he, heu, hw2⟩ := hw
    obtain ⟨du2, dv2, h1, h2, hle⟩ := hfp e he
    have hdu2 : du2 = du := by
      rw [heu, hdu] at h1
      injection h1 with h1
      exact h1.symm
    subst hdu2
    obtain ⟨dv, hdv, hvle⟩ := ih e.2.1 v hw2 dv2 h2
    refine ⟨dv, hdv, ?_⟩
    have hsum : ((wsum (e :: rest) : Int) : WithTop Int) =
        (e.2.2 : WithTop Int) + ((wsum rest : Int) : WithTop Int) := by
      show ((e.2.2 + wsum rest : Int) : WithTop Int) = _
      rw [WithTop.coe_add]
    rw [hsum, ← add_assoc]
    calc dv ≤ dv2 + ((wsum rest : Int) : WithTop Int) := hvle
      _ ≤ (du2 + (e.2.2 : WithTop Int)) + ((wsum rest : Int) : WithTop Int) :=
          add_le_add_right hle _

/-- A distances dictionary at the fixed point, with a finite source entry,
certifies that no negative closed walk is reachable. -/
theorem fp_no_negwalk {g : Graph} {s : Vertex} {d : DistMap}
    (hfp : FixedPoint d (edgeList g)) {ds : Int}
    (hds : alookup d s = some ((ds : Int) : WithTop Int)) :
    ¬ HasReachableNegWalk g s := by
  rintro ⟨x, c, ⟨lw, hlw⟩, hc, hcne, hcneg⟩
  obtain ⟨dx, hdx, hxle⟩ := fp_walk_le hfp lw s x hlw _ hds
  have hxfin : ∃ b : Int, dx = (b : WithTop Int) := by
    have : dx ≤ ((ds + wsum lw : Int) : WithTop Int) := by
      rw [WithTop.coe_add]
      exact hxle
    obtain ⟨b, hb, -⟩ := WithTop.le_coe_iff.mp this
    exact ⟨b, hb⟩
  obtain ⟨b, rfl⟩ := hxfin
  obtain ⟨dx2, hdx2, h2le⟩ := fp_walk_le hfp c x x hc _ hdx
  rw [hdx] at hdx2
  injection hdx2 with hdx2
  subst hdx2
  have : (b : WithTop Int) ≤ ((b + wsum c : Int) : WithTop Int) := by
    rw [WithTop.coe_add]
    exact h2le
  have hble : b ≤ b + wsum c := by exact_mod_cast this
  omega

/-- The source entry of the final state is finite and at most zero. -/
theorem final_src_finite (g : Graph) (s : Vertex) :
    ∃ ds : Int, alookup (finalState g s).d s = some ((ds : Int) : WithTop Int) ∧
      ds ≤ 0 := by
  have h0 : alookup (initState g s).d s = some ((0 : Int) : WithTop Int) := by
    show alookup (initD g s) s = _
    rw [initD_lookup, if_pos rfl]
  obtain ⟨ds, hds, hle⟩ :=
    irounds_dle (g.length - 1) (edgeList g) (initState g s) s _ h0
  obtain ⟨b, hb, hble⟩ := WithTop.le_coe_iff.mp hle
  subst hb
  exact ⟨b, hds, hble⟩

/-- A successful run certifies the absence of reachable negative walks. -/
theorem bf_ok_no_negwalk {g : Graph} {s : Vertex} {r : DistMap × PredMap}
    (hok : bellman_ford_algorithm g s = .ok r) :
    ¬ HasReachableNegWalk g s := by
  obtain ⟨hcov, hd, hp, hfp⟩ := bf_ok_shape hok
  rw [hd] at hfp
  obtain ⟨ds, hds, -⟩ := final_src_finite g s
  exact fp_no_negwalk hfp hds

/-- With the key conditions in force the run never raises a KeyError. -/
theorem bf_not_keyerror {g : Graph} {s : Vertex}
    (hcov : Covers (initD g s) (edgeList g)) :
    bellman_ford_algorithm g s ≠ .error .keyError := by
  intro h
  have hrr : relaxRounds (g.length - 1) (edgeList g) (initD g s) (initP g) =
      .ok ((finalState g s).d, (finalState g s).p) :=
    relaxRounds_eq (g.length - 1) (edgeList g) (initState g s) hcov
  have hcovf : Covers (finalState g s).d (edgeList g) := by
    intro e he
    have h2 := hcov e he
    exact ⟨(irounds_dkeys _ _ _ e.1).mpr h2.1,
           (irounds_dkeys _ _ _ e.2.1).mpr h2.2⟩
  rcases checkList_cases (edgeList g) (finalState g s).d hcovf with hck | hck
  · have hbf : bellman_ford_algorithm g s =
        .ok ((finalState g s).d, (finalState g s).p) := by
      rw [bf_rounds_ok hrr, hck]
    rw [hbf] at h
    exact Except.noConfusion h
  · have hbf : bellman_ford_algorithm g s = .error .negCycle := by
      rw [bf_rounds_ok hrr, hck]
    rw [hbf] at h
    injection h with h2
    exact BFErr.noConfusion h2

/-- No reachable negative walk: after the |V|-1 passes the fixed point is
reached. -/
theorem nf_fixedpoint {g : Graph} {s : Vertex} (hkc : KeyComplete g)
    (hs : s ∈ keys g) (hNF : ¬ HasReachableNegWalk g s) :
    FixedPoint (finalState g s).d (edgeList g) := by
  intro e he
  have hcov := initState_covers (g := g) (s := s) hkc
  have h1s : (alookup (finalState g s).d e.1).isSome :=
    (irounds_dkeys _ _ _ e.1).mpr (hcov e he).1
  have h2s : (alookup (finalState g s).d e.2.1).isSome :=
    (irounds_dkeys _ _ _ e.2.1).mpr (hcov e he).2
  obtain ⟨du, h1⟩ := Option.isSome_iff_exists.mp h1s
  rcases (inv_final g s).sound e.1 du h1 with htop | ⟨l, hwl, hcoe⟩
  · obtain ⟨dv, h2⟩ := Option.isSome_iff_exists.mp h2s
    refine ⟨du, dv, h1, h2, ?_⟩
    rw [htop, WithTop.top_add]
    exact le_top
  · have hw2 : IsWalkFrom (edgeList g) s e.2.1 (l ++ [e]) :=
      walk_append.mpr ⟨e.1, hwl, ⟨he, rfl, rfl⟩⟩
    obtain ⟨dv, hdv, hle⟩ := finalState_dist_le_walk hkc hs hNF hw2
    refine ⟨du, dv, h1, hdv, ?_⟩
    have hsum : ((wsum (l ++ [e]) : Int) : WithTop Int) =
        ((wsum l : Int) : WithTop Int) + (e.2.2 : WithTop Int) := by
      rw [wsum_append]
      show ((wsum l + (e.2.2 + wsum []) : Int) : WithTop Int) = _
      simp [wsum, WithTop.coe_add]
    rw [hsum, hcoe] at hle
    exact hle

/-! ### Predecessor dictionary size bounds -/

theorem aset_length_le {β : Type} :
    ∀ (m : List (Vertex × β)) (k : Vertex) (x : β),
      m.length ≤ (aset m k x).length := by
  intro m
  induction m with
  | nil => intro k x; simp [aset]
  | cons hd tl ih =>
    intro k x
    obtain ⟨k2, x2⟩ := hd
    by_cases h : k2 = k
    · simp [aset, h]
    · simp only [aset, if_neg h, List.length_cons]
      have := ih k x
      omega

theorem irelax_plen (σ : IState) (e : Edge) :
    σ.p.length ≤ (irelax σ e).p.length := by
  rcases irelax_cases σ e with heq | ⟨du, dv, h1, h2, hlt, heq⟩
  · rw [heq]
  · have hp : (irelax σ e).p = aset σ.p e.2.1 (some e.1) := by rw [heq]
    rw [hp]
    exact aset_length_le σ.p e.2.1 (some e.1)

theorem irelaxList_plen :
    ∀ (es : List Edge) (σ : IState),
      σ.p.length ≤ (irelaxList es σ).p.length := by
  intro es
  induction es with
  | nil => intro σ; exact le_refl _
  | cons e rest ih =>
    intro σ
    exact le_trans (irelax_plen σ e) (ih (irelax σ e))

theorem irounds_plen :
    ∀ (n : Nat) (es : List Edge) (σ : IState),
      σ.p.length ≤ (irounds n es σ).p.length := by
  intro n
  induction n with
  | zero => intro es σ; exact le_refl _
  | succ n ih =>
    intro es σ
    exact le_trans (irelaxList_plen es σ) (ih es (irelaxList es σ))

theorem final_plen (g : Graph) (s : Vertex) :
    g.length ≤ (finalState g s).p.length := by
  have h1 : (initState g s).p.length = g.length := by
    simp [initState, initP]
  have h2 := irounds_plen (g.length - 1) (edgeList g) (initState g s)
  show g.length ≤ (irounds (g.length - 1) (edgeList g) (initState g s)).p.length
  omega

/-! ### Predecessor-chain extraction at the fixed point -/

/-- At the fixed point, following the predecessor links from any finite
vertex yields a vertex-distinct walk from the source whose weight equals
the recorded distance, and the reconstruct_path loop reproduces exactly
its vertex sequence.  Ghost timestamps strictly decrease along the chain,
which gives the termination measure. -/
theorem final_chain {g : Graph} {s : Vertex} (hs : s ∈ keys g)
    (hNF : ¬ HasReachableNegWalk g s)
    (hfp : FixedPoint (finalState g s).d (edgeList g)) :
    ∀ (n : Nat) (v : Vertex) (a : Int), (finalState g s).stamp v ≤ n →
      v ∈ keys g →
      alookup (finalState g s).d v = some ((a : Int) : WithTop Int) →
      ∃ l, IsWalkFrom (edgeList g) s v l ∧ wsum l = a ∧
        (walkVerts s l).Nodup ∧ (∀ z ∈ walkVerts s l, z ∈ keys g) ∧
        (∀ z ∈ walkVerts s l,
          (finalState g s).stamp z ≤ (finalState g s).stamp v) ∧
        (∀ fuel acc, l.length + 1 ≤ fuel →
          reconstructAux (finalState g s).p fuel v acc =
            some (walkVerts s l ++ acc)) := by
  intro n
  induction n using Nat.strong_induction_on with
  | _ n ih =>
    intro v a hstv hvk hda
    have hInv := inv_final g s
    obtain ⟨pv, hpv⟩ := Option.isSome_iff_exists.mp (hInv.pkeys v hvk)
    cases pv with
    | none =>
      have hvs : v = s := by
        rcases hInv.predNone v hpv with h | h
        · exact h
        · rw [hda] at h
          injection h with h
          exact absurd h (WithTop.coe_ne_top)
      subst hvs
      have ha0 : a = 0 := by
        have h0 := hInv.srcZero hNF
        rw [hda] at h0
        injection h0 with h0
        exact_mod_cast h0
      subst ha0
      refine ⟨[], rfl, rfl, by simp [walkVerts], ?_, ?_, ?_⟩
      · intro z hz
        have : z = v := by simpa [walkVerts] using hz
        rw [this]
        exact hvk
      · intro z hz
        have : z = v := by simpa [walkVerts] using hz
        rw [this]
      · intro fuel acc hfuel
        cases fuel with
        | zero => omega
        | succ f =>
          rw [reconstructAux, hpv]
          exact rfl
    | some y =>
      obtain ⟨w, dx, dy, hedge, hdx, hdy, hstne, himp1, himp2⟩ :=
        hInv.predSome hNF v y hpv
      have hdxa : dx = a := by
        rw [hda] at hdx
        injection hdx with hdx
        exact_mod_cast hdx.symm
      subst hdxa
      obtain ⟨du2, dv2, h1f, h2f, hlef⟩ := hfp (y, v, w) hedge
      have hdu2 : du2 = (dy : WithTop Int) := by
        rw [hdy] at h1f
        injection h1f with h
        exact h.symm
      have hdv2 : dv2 = ((dx : Int) : WithTop Int) := by
        rw [hda] at h2f
        injection h2f with h
        exact h.symm
      have hfple : dx ≤ dy + w := by
        rw [hdu2, hdv2] at hlef
        have : ((dx : Int) : WithTop Int) ≤ ((dy + w : Int) : WithTop Int) := by
          rw [WithTop.coe_add]
          exact hlef
        exact_mod_cast this
      have hstlt : (finalState g s).stamp y < (finalState g s).stamp v := by
        rcases lt_or_gt_of_ne hstne with hc | hc
        · exact hc
        · exfalso
          have := himp2 hc
          omega
      have haeq : dx = dy + w := himp1 hstlt
      have hyk : y ∈ keys g := edge_src_mem g (y, v, w) hedge
      obtain ⟨ly, hwy, hwsy, hndy, hmemy, hsty, hrecy⟩ :=
        ih ((finalState g s).stamp y) (lt_of_lt_of_le hstlt hstv) y dy
          (le_refl _) hyk hdy
      have hwv : walkVerts s (ly ++ [(y, v, w)]) = walkVerts s ly ++ [v] := by
        simp [walkVerts]
      refine ⟨ly ++ [(y, v, w)],
        walk_append.mpr ⟨y, hwy, ⟨hedge, rfl, rfl⟩⟩, ?_, ?_, ?_, ?_, ?_⟩
      · rw [wsum_append]
        simp [wsum]
        omega
      · rw [hwv]
        rw [List.nodup_append]
        refine ⟨hndy, by simp, ?_⟩
        intro z hz hz2
        have hzv : z = v := by simpa using hz2
        subst hzv
        have := hsty z hz
        omega
      · intro z hz
        rw [hwv] at hz
        rcases List.mem_append.mp hz with h | h
        · exact hmemy z h
        · have : z = v := by simpa using h
          rw [this]
          exact hvk
      · intro z hz
        rw [hwv] at hz
        rcases List.mem_append.mp hz with h | h
        · exact le_trans (hsty z h) (le_of_lt hstlt)
        · have : z = v := by simpa using h
          rw [this]
      · intro fuel acc hfuel
        have hlen : (ly ++ [(y, v, w)]).length = ly.length + 1 := by simp
        cases fuel with
        | zero => omega
        | succ f =>
          rw [reconstructAux, hpv]
          have hf : ly.length + 1 ≤ f := by omega
          show reconstructAux (finalState g s).p f y (v :: acc) =
            some (walkVerts s (ly ++ [(y, v, w)]) ++ acc)
          rw [hrecy f (v :: acc) hf, hwv]
          simp

/-! ### Missing-key failure lemmas -/

theorem relaxEdge_err_eq {d : DistMap} {p : PredMap} {e : Edge} {err : BFErr}
    (h : relaxEdge d p e = .error err) : err = .keyError := by
  rcases h1 : alookup d e.1 with _ | du
  · rw [relaxEdge_none d p e (Or.inl h1)] at h
    injection h with h
    exact h.symm
  · rcases h2 : alookup d e.2.1 with _ | dv
    · rw [relaxEdge_none d p e (Or.inr h2)] at h
      injection h with h
      exact h.symm
    · rw [relaxEdge_some d p e du dv h1 h2] at h
      by_cases hlt : du + (e.2.2 : WithTop Int) < dv
      · rw [if_pos hlt] at h
        exact Except.noConfusion h
      · rw [if_neg hlt] at h
        exact Except.noConfusion h

theorem relaxList_err_of_missing :
    ∀ (es : List Edge) (d : DistMap) (p : PredMap) (e : Edge), e ∈ es →
      alookup d e.2.1 = none → relaxList es d p = .error .keyError := by
  intro es
  induction es with
  | nil => intro d p e he; exact absurd he (List.not_mem_nil e)
  | cons e0 rest ih =>
    intro d p e he hmiss
    rcases List.mem_cons.mp he with rfl | hmem
    · rw [relaxList, relaxEdge_none d p e (Or.inr hmiss)]
    · rcases hre : relaxEdge d p e0 with err | dp1
      · rw [relaxList, hre]
        rw [relaxEdge_err_eq hre]
      · obtain ⟨d1, p1⟩ := dp1
        rw [relaxList, hre]
        have hmiss1 : alookup d1 e.2.1 = none := by
          have h := relaxEdge_ok_dkeys hre e.2.1
          rw [Option.eq_none_iff_forall_not_mem]
          intro a ha
          have : (alookup d1 e.2.1).isSome := by
            rw [ha]; rfl
          have h2 : (alookup d e.2.1).isSome := h.mp this
          rw [hmiss] at h2
          exact Bool.noConfusion h2
        exact ih d1 p1 e hmem hmiss1

theorem relaxRounds_err_of_missing (n : Nat) (h1n : 1 ≤ n)
    (es : List Edge) (d : DistMap) (p : PredMap) (e : Edge) (he : e ∈ es)
    (hmiss : alookup d e.2.1 = none) :
    relaxRounds n es d p = .error .keyError := by
  cases n with
  | zero => omega
  | succ n => rw [relaxRounds, relaxList_err_of_missing es d p e he hmiss]

/-! ### The source entry is untouched when no edge targets the source -/

theorem irelax_d_other (σ : IState) (e : Edge) (x : Vertex)
    (hx : e.2.1 ≠ x) : alookup (irelax σ e).d x = alookup σ.d x := by
  rcases irelax_cases σ e with heq | ⟨du, dv, h1, h2, hlt, heq⟩
  · rw [heq]
  · have hd : (irelax σ e).d = aset σ.d e.2.1 (du + (e.2.2 : WithTop Int)) := by
      rw [heq]
    rw [hd, alookup_aset_ne σ.d e.2.1 x _ (Ne.symm hx)]

theorem irelaxList_d_other :
    ∀ (es : List Edge) (σ : IState) (x : Vertex),
      (∀ e ∈ es, e.2.1 ≠ x) →
      alookup (irelaxList es σ).d x = alookup σ.d x := by
  intro es
  induction es with
  | nil => intro σ x _; rfl
  | cons e rest ih =>
    intro σ x h
    rw [show irelaxList (e :: rest) σ = irelaxList rest (irelax σ e) from rfl,
      ih (irelax σ e) x (fun e2 he2 => h e2 (List.mem_cons_of_mem _ he2)),
      irelax_d_other σ e x (h e (List.mem_cons_self e rest))]

theorem irounds_d_other :
    ∀ (n : Nat) (es : List Edge) (σ : IState) (x : Vertex),
      (∀ e ∈ es, e.2.1 ≠ x) →
      alookup (irounds n es σ).d x = alookup σ.d x := by
  intro n
  induction n with
  | zero => intro es σ x _; rfl
  | succ n ih =>
    intro es σ x h
    rw [show irounds (n + 1) es σ = irounds n es (irelaxList es σ) from rfl,
      ih es (irelaxList es σ) x h, irelaxList_d_other es σ x h]

/-- KeyComplete from its unfolded bounded-quantifier form (lets concrete
instances be discharged by decide). -/
theorem keyComplete_of_ball (g : Graph)
    (h : ∀ e ∈ edgeList g, e.1 ∈ keys g ∧ e.2.1 ∈ keys g) : KeyComplete g := h

/-! ### Claim C1: full functional correctness on cycle-free inputs -/

/-- Claim C1: with every edge endpoint and the source among the keys and
no negative cycle reachable from the source, the algorithm returns
successfully; every vertex is mapped to its true shortest-path weight
(a lower bound on the weight of every walk from the source, attained by a
vertex-distinct path; `⊤`, the infinity sentinel, exactly for unreachable
vertices), and the predecessors encode a valid shortest-path tree: for
every reachable vertex, walking the predecessor chain reconstructs a
vertex sequence that is a shortest path from the source. -/
theorem c1_shortest_paths (g : Graph) (s : Vertex) (hkc : KeyComplete g)
    (hs : s ∈ keys g) (hnc : ¬ HasReachableNegCycle g s) :
    ∃ d p, bellman_ford_algorithm g s = .ok (d, p) ∧
      ∀ v ∈ keys g, ∃ dv, alookup d v = some dv ∧
        (∀ l, IsWalkFrom (edgeList g) s v l →
          dv ≤ ((wsum l : Int) : WithTop Int)) ∧
        (¬ Reachable g s v → dv = ⊤) ∧
        (Reachable g s v → ∃ l, IsWalkFrom (edgeList g) s v l ∧
          (walkVerts s l).Nodup ∧ ((wsum l : Int) : WithTop Int) = dv ∧
          reconstruct_path p v = some (walkVerts s l)) := by
  have hNF : ¬ HasReachableNegWalk g s := fun h => hnc (negwalk_negcycle h)
  have hcov := initState_covers (g := g) (s := s) hkc
  have hfp := nf_fixedpoint hkc hs hNF
  refine ⟨(finalState g s).d, (finalState g s).p, bf_ok_of_fp hcov hfp, ?_⟩
  intro v hv
  have hsome : (alookup (finalState g s).d v).isSome :=
    ((inv_final g s).dkeys v).mpr (Or.inl hv)
  obtain ⟨dv, hdv⟩ := Option.isSome_iff_exists.mp hsome
  refine ⟨dv, hdv, ?_, ?_, ?_⟩
  · intro l hw
    obtain ⟨dv2, hdv2, hle⟩ := finalState_dist_le_walk hkc hs hNF hw
    rw [hdv] at hdv2
    injection hdv2 with h
    rw [h]
    exact hle
  · intro hnr
    rcases (inv_final g s).sound v dv hdv with htop | ⟨l, hw, -⟩
    · exact htop
    · exact absurd ⟨l, hw⟩ hnr
  · intro hr
    obtain ⟨lw, hlw⟩ := hr
    obtain ⟨dv2, hdv2, hle⟩ := finalState_dist_le_walk hkc hs hNF hlw
    rw [hdv] at hdv2
    injection hdv2 with h
    subst h
    obtain ⟨a, ha, -⟩ := WithTop.le_coe_iff.mp hle
    subst ha
    obtain ⟨l, hw, hws, hnd, hmem, hstamp, hrec⟩ :=
      final_chain hs hNF hfp ((finalState g s).stamp v) v a (le_refl _) hv hdv
    refine ⟨l, hw, hnd, by rw [hws], ?_⟩
    have hbound : l.length + 1 ≤ g.length := by
      have hsub : walkVerts s l ⊆ keys g := fun z hz => hmem z hz
      have hle2 : (walkVerts s l).length ≤ (keys g).length :=
        (List.subperm_of_subset hnd hsub).length_le
      have h1 : (walkVerts s l).length = l.length + 1 := by simp [walkVerts]
      have h2 : (keys g).length = g.length := by simp [keys]
      omega
    have hplen := final_plen g s
    have hrec2 := hrec ((finalState g s).p.length + 1) [] (by omega)
    show reconstructAux (finalState g s).p ((finalState g s).p.length + 1)
      v [] = some (walkVerts s l)
    rw [hrec2]
    simp

/-- Witness for C1 on the single-vertex graph. -/
theorem c1_shortest_paths_witness :
    ∃ d p, bellman_ford_algorithm [("A", [])] "A" = .ok (d, p) ∧
      ∀ v ∈ keys [("A", [])], ∃ dv, alookup d v = some dv ∧
        (∀ l, IsWalkFrom (edgeList [("A", [])]) "A" v l →
          dv ≤ ((wsum l : Int) : WithTop Int)) ∧
        (¬ Reachable [("A", [])] "A" v → dv = ⊤) ∧
        (Reachable [("A", [])] "A" v →
          ∃ l, IsWalkFrom (edgeList [("A", [])]) "A" v l ∧
          (walkVerts "A" l).Nodup ∧ ((wsum l : Int) : WithTop Int) = dv ∧
          reconstruct_path p v = some (walkVerts "A" l)) := by
  apply c1_shortest_paths
  · intro e he
    exact absurd he (List.not_mem_nil e)
  · simp [keys]
  · rintro ⟨x, c, hr, hw, hne, hlt, hnd⟩
    cases c with
    | nil => exact hne rfl
    | cons e rest => exact absurd hw.1 (List.not_mem_nil e)

/-! ### Claim C2: the negative-cycle error is raised exactly on reachable
negative cycles -/

/-- Claim C2: under the key-completeness precondition, the run raises the
negative-cycle error if and only if a directed cycle of strictly negative
weight is reachable from the source.  (On failure the Except value
carries no distances or predecessors; a negative edge on no reachable
cycle falls in the right-to-left direction.) -/
theorem c2_negcycle_iff (g : Graph) (s : Vertex) (hkc : KeyComplete g)
    (hs : s ∈ keys g) :
    bellman_ford_algorithm g s = .error .negCycle ↔
      HasReachableNegCycle g s := by
  constructor
  · intro herr
    by_contra hnc
    have hNF : ¬ HasReachableNegWalk g s := fun h => hnc (negwalk_negcycle h)
    have hok := bf_ok_of_fp (initState_covers hkc) (nf_fixedpoint hkc hs hNF)
    rw [herr] at hok
    exact Except.noConfusion hok
  · intro hcyc
    obtain ⟨x, c, hr, hw, hne, hlt, hnd⟩ := hcyc
    have hNW : HasReachableNegWalk g s := ⟨x, c, hr, hw, hne, hlt⟩
    rcases hbf : bellman_ford_algorithm g s with err | r
    · cases err with
      | negCycle => rfl
      | keyError => exact absurd hbf (bf_not_keyerror (initState_covers hkc))
    · exact absurd hNW (bf_ok_no_negwalk hbf)

/-- Witness for C2 on the two-vertex graph with the negative cycle
A -> B -> A of weight -1: the error is raised. -/
theorem c2_negcycle_iff_witness :
    bellman_ford_algorithm [("A", [("B", 1)]), ("B", [("A", -2)])] "A" =
      .error .negCycle := by
  apply (c2_negcycle_iff [("A", [("B", 1)]), ("B", [("A", -2)])] "A"
    (keyComplete_of_ball _ (by decide)) (by decide)).mpr
  refine ⟨"A", [("A", "B", 1), ("B", "A", -2)], ⟨[], rfl⟩,
    ⟨by decide, rfl, by decide, rfl, rfl⟩, by decide, by decide, by decide⟩

/-! ### Claim C3: the fixed-point postcondition on success -/

/-- Claim C3: whenever the run returns successfully, the returned
distances can no longer relax any edge: for every edge (u, v, w),
distances[v] is at most distances[u] + w. -/
theorem c3_fixed_point (g : Graph) (s : Vertex) (hkc : KeyComplete g)
    (hs : s ∈ keys g) (d : DistMap) (p : PredMap)
    (hok : bellman_ford_algorithm g s = .ok (d, p)) :
    ∀ e ∈ edgeList g, ∃ du dv, alookup d e.1 = some du ∧
      alookup d e.2.1 = some dv ∧ dv ≤ du + (e.2.2 : WithTop Int) :=
  (bf_ok_shape hok).2.2.2

/-- Witness for C3 on a concrete two-vertex run, at the edge (A, B, 2). -/
theorem c3_fixed_point_witness :
    ∃ du dv, alookup [("A", ((0 : Int) : WithTop Int)),
        ("B", ((2 : Int) : WithTop Int))] "A" = some du ∧
      alookup [("A", ((0 : Int) : WithTop Int)),
        ("B", ((2 : Int) : WithTop Int))] "B" = some dv ∧
      dv ≤ du + ((2 : Int) : WithTop Int) :=
  c3_fixed_point [("A", [("B", 2)]), ("B", [])] "A"
    (keyComplete_of_ball _ (by decide))
    (by decide) _ [("A", none), ("B", some "A")] rfl
    ("A", "B", 2) (by decide)

/-! ### Claim C5 (amended): silent handling of an absent source -/

/-- Amended claim C5: when the source is absent from the graph's key set
(and the graph itself is key-complete), the algorithm does not raise a
lookup error.  It silently adds the source to the distances dictionary
with value 0 and either returns successfully, with distances[source] = 0,
or raises the negative-cycle error. -/
theorem c5_missing_source (g : Graph) (s : Vertex) (hkc : KeyComplete g)
    (hs : s ∉ keys g) :
    (∃ d p, bellman_ford_algorithm g s = .ok (d, p) ∧
      alookup d s = some ((0 : Int) : WithTop Int)) ∨
    bellman_ford_algorithm g s = .error .negCycle := by
  have hcov := initState_covers (g := g) (s := s) hkc
  have hrr : relaxRounds (g.length - 1) (edgeList g) (initD g s) (initP g) =
      .ok ((finalState g s).d, (finalState g s).p) :=
    relaxRounds_eq (g.length - 1) (edgeList g) (initState g s) hcov
  have hcovf : Covers (finalState g s).d (edgeList g) := by
    intro e he
    have h := hcov e he
    exact ⟨(irounds_dkeys _ _ _ e.1).mpr h.1,
           (irounds_dkeys _ _ _ e.2.1).mpr h.2⟩
  have hsrc : alookup (finalState g s).d s = some ((0 : Int) : WithTop Int) := by
    have hno : ∀ e ∈ edgeList g, e.2.1 ≠ s := by
      intro e he heq
      exact hs (heq ▸ (hkc e he).2)
    show alookup (irounds (g.length - 1) (edgeList g) (initState g s)).d s = _
    rw [irounds_d_other (g.length - 1) (edgeList g) (initState g s) s hno]
    show alookup (initD g s) s = _
    rw [initD_lookup, if_pos rfl]
  rcases checkList_cases (edgeList g) (finalState g s).d hcovf with hck | hck
  · left
    have hfp := checkList_ok_fp _ _ hck
    exact ⟨(finalState g s).d, (finalState g s).p, bf_ok_of_fp hcov hfp, hsrc⟩
  · right
    rw [bf_rounds_ok hrr, hck]

/-- Witness for the amended C5. -/
theorem c5_missing_source_witness :
    (∃ d p, bellman_ford_algorithm [("A", [])] "Z" = .ok (d, p) ∧
      alookup d "Z" = some ((0 : Int) : WithTop Int)) ∨
    bellman_ford_algorithm [("A", [])] "Z" = .error .negCycle := by
  apply c5_missing_source
  · intro e he
    exact absurd he (List.not_mem_nil e)
  · decide

/-! ### Claim C6 (amended): a missing edge target raises a key error -/

/-- Amended claim C6: in a graph with at least two vertices, an edge whose
target vertex is absent from the key set and distinct from the source
makes the algorithm raise a lookup (key) error in the first relaxation
pass.  (When the absent target coincides with the source, the source
initialisation adds the key and no error occurs — the counterexample to
the claim as stated.) -/
theorem c6_missing_target (g : Graph) (s : Vertex) (e : Edge)
    (hlen : 2 ≤ g.length) (he : e ∈ edgeList g) (hmiss : e.2.1 ∉ keys g)
    (hes : e.2.1 ≠ s) :
    bellman_ford_algorithm g s = .error .keyError := by
  have hnone : alookup (initD g s) e.2.1 = none := by
    rw [initD_lookup, if_neg hes, if_neg hmiss]
  have h1 : 1 ≤ g.length - 1 := by omega
  rw [bellman_ford_algorithm,
    relaxRounds_err_of_missing (g.length - 1) h1 (edgeList g) (initD g s)
      (initP g) e he hnone]

/-- Witness for the amended C6. -/
theorem c6_missing_target_witness :
    bellman_ford_algorithm [("A", [("Q", 1)]), ("B", [])] "A" =
      .error .keyError :=
  c6_missing_target [("A", [("Q", 1)]), ("B", [])] "A" ("A", "Q", 1)
    (by decide) (by decide) (by decide) (by decide)

/-! ### Claim C7: reconstructing a path to an unreached vertex -/

/-- Claim C7: after a successful run, a vertex whose distance is the
infinity sentinel has no predecessor, and reconstruct_path on it
terminates immediately with the degenerate single-element path; no
unreachability error is signalled. -/
theorem c7_unreachable_path (g : Graph) (s : Vertex) (d : DistMap)
    (p : PredMap) (hok : bellman_ford_algorithm g s = .ok (d, p))
    (v : Vertex) (hv : alookup d v = some ⊤) :
    reconstruct_path p v = some [v] := by
  obtain ⟨hcov, hd, hp2, hfp⟩ := bf_ok_shape hok
  have hNF := bf_ok_no_negwalk hok
  have hInv := inv_final g s
  have hd2 : d = (finalState g s).d := hd
  have hp3 : p = (finalState g s).p := hp2
  subst hd2
  subst hp3
  have hvk : v ∈ keys g := by
    rcases (hInv.dkeys v).mp (by simp [hv]) with h | h
    · exact h
    · exfalso
      subst h
      have hz := hInv.srcZero hNF
      rw [hv] at hz
      injection hz with hz
      exact absurd hz.symm (WithTop.coe_ne_top)
  obtain ⟨pv, hpv⟩ := Option.isSome_iff_exists.mp (hInv.pkeys v hvk)
  cases pv with
  | some y =>
    obtain ⟨w, dx, dy, -, hdx, -⟩ := hInv.predSome hNF v y hpv
    rw [hv] at hdx
    injection hdx with hdx
    exact absurd hdx.symm (WithTop.coe_ne_top)
  | none =>
    show reconstructAux (finalState g s).p ((finalState g s).p.length + 1)
      v [] = some [v]
    rw [reconstructAux, hpv]

/-- Witness for C7: the disconnected vertex C of scenario 4. -/
theorem c7_unreachable_path_witness :
    reconstruct_path [("A", none), ("B", some "A"), ("C", none)] "C" =
      some ["C"] :=
  c7_unreachable_path [("A", [("B", 1)]), ("B", []), ("C", [])] "A"
    [("A", ((0 : Int) : WithTop Int)), ("B", ((1 : Int) : WithTop Int)),
     ("C", (⊤ : WithTop Int))]
    [("A", none), ("B", some "A"), ("C", none)] rfl "C" rfl

/-! ### Claim C8: the source distance is exactly zero on success -/

/-- Claim C8: whenever the run returns successfully, the returned
distances map the source to exactly 0. -/
theorem c8_source_zero (g : Graph) (s : Vertex) (hkc : KeyComplete g)
    (hs : s ∈ keys g) (d : DistMap) (p : PredMap)
    (hok : bellman_ford_algorithm g s = .ok (d, p)) :
    alookup d s = some ((0 : Int) : WithTop Int) := by
  obtain ⟨hcov, hd, hp2, hfp⟩ := bf_ok_shape hok
  have hNF := bf_ok_no_negwalk hok
  have hd2 : d = (finalState g s).d := hd
  subst hd2
  exact (inv_final g s).srcZero hNF

/-- Witness for C8 on a concrete two-vertex run. -/
theorem c8_source_zero_witness :
    alookup [("A", ((0 : Int) : WithTop Int)),
      ("B", ((2 : Int) : WithTop Int))] "A" =
      some ((0 : Int) : WithTop Int) :=
  c8_source_zero [("A", [("B", 2)]), ("B", [])] "A"
    (keyComplete_of_ball _ (by decide)) (by decide)
    _ [("A", none), ("B", some "A")] rfl

/-! ### Claim C10: the source never acquires a predecessor -/

/-- Claim C10: for a source in the key set, a successful run maps the
source's predecessor to none, and reconstruct_path at the source returns
the single-element path [source]. -/
theorem c10_source_pred_none (g : Graph) (s : Vertex) (hs : s ∈ keys g)
    (d : DistMap) (p : PredMap)
    (hok : bellman_ford_algorithm g s = .ok (d, p)) :
    alookup p s = some none ∧ reconstruct_path p s = some [s] := by
  obtain ⟨hcov, hd, hp2, hfp⟩ := bf_ok_shape hok
  have hNF := bf_ok_no_negwalk hok
  have hp3 : p = (finalState g s).p := hp2
  subst hp3
  have hsp := (inv_final g s).srcPred hNF hs
  refine ⟨hsp, ?_⟩
  show reconstructAux (finalState g s).p ((finalState g s).p.length + 1)
    s [] = some [s]
  rw [reconstructAux, hsp]

/-- Witness for C10 on a concrete two-vertex run. -/
theorem c10_source_pred_none_witness :
    alookup [("A", none), ("B", some "A")] "A" = some none ∧
    reconstruct_path [("A", none), ("B", some "A")] "A" = some ["A"] :=
  c10_source_pred_none [("A", [("B", 2)]), ("B", [])] "A" (by decide)
    [("A", ((0 : Int) : WithTop Int)), ("B", ((2 : Int) : WithTop Int))]
    [("A", none), ("B", some "A")] rfl

end BellmanFord
